import Mathlib

/-!
Verification of the momentum9 trading tracker.

Shallow embedding of the core of the repository:
* `strategies.py` — option-contract scoring and selection (`find_best_contract`);
* `prices.py` — trading-day resolution (`_ensure_date_data`), the bulk-fetch
  retry loop (`_fetch_polygon_grouped`) and the benchmark fetch
  (`_fetch_and_save_benchmark`);
* `ranking.py` — momentum ranking (`calculate_ranks`) and streak bookkeeping
  (`extract_top_picks` / `_calculate_streaks`);
* `tracker.py` — the position state machine (`process_signals`) and the
  price-resolution pass (`resolve_prices` / `get_stock_price`).

Modelling conventions: calendar dates are day numbers (`Nat`, with
`d % 7` the weekday, Monday = 0, so 5 and 6 are the weekend); money amounts
are exact rationals (`ℚ`) standing in for Python floats; fallible values are
`Option`; network responses are supplied by explicit oracle functions, so a
run of an effectful routine is a pure function of its oracles.
-/

namespace Momentum

/-! ## Option contract selection (strategies.py) -/

/-- An option contract as returned by the reference/options/contracts
endpoint: the option symbol (`ticker` in the payload), `expiration_date`
(as a day number), `strike_price` and `contract_type`. -/
structure OptContract where
  symbol : String
  expiration : Int
  strike : ℚ
  contract_type : String
  deriving DecidableEq

/-- The per-strategy constants fixed at the top of
`OptionPicker.find_best_contract`: target days to expiration, target-strike
multiplier, contract type, expiration window (days), strike window
(fraction). -/
structure StrategyParams where
  target_days : Int
  strike_mult : ℚ
  contract_type : String
  date_window : Int
  strike_window_pct : ℚ
  deriving DecidableEq

/-- The strategy preset table of `find_best_contract`; unknown strategies
return `None` in the source. -/
def strategy_params (strategy_type : String) : Option StrategyParams :=
  if strategy_type = "100d_Call" then
    some ⟨100, 105/100, "call", 45, 25/100⟩
  else if strategy_type = "500d_LEAP" then
    some ⟨500, 110/100, "call", 200, 40/100⟩
  else if strategy_type = "Short_Put" then
    some ⟨30, 1, "put", 20, 20/100⟩
  else none

/-- `score = date_diff + (strike_diff_pct * 5.0)` where
`date_diff = abs((exp - target_date).days)` and
`strike_diff_pct = abs((strike - target_strike) / target_strike) * 100`. -/
def contract_score (target_date : Int) (target_strike : ℚ) (c : OptContract) : ℚ :=
  |((c.expiration - target_date : Int) : ℚ)| +
    |(c.strike - target_strike) / target_strike| * 100 * 5

/-- The selection loop of `find_best_contract`: running best starts as
`None` with `min_score = inf`, and a candidate replaces the running best
only when its score is strictly smaller (`if score < min_score`). -/
def select_best (target_date : Int) (target_strike : ℚ) (candidates : List OptContract) :
    Option OptContract :=
  candidates.foldl (fun best c =>
    match best with
    | none => some c
    | some b =>
      if contract_score target_date target_strike c <
          contract_score target_date target_strike b then some c else best) none

/-- `find_best_contract(ticker, stock_price, strategy_type)` applied to the
candidate list returned by the API: look up the strategy preset, derive
`target_date = today + target_days` and `target_strike = price * mult`, and
run the selection loop. -/
def find_best_contract (today : Nat) (stock_price : ℚ) (strategy_type : String)
    (candidates : List OptContract) : Option OptContract :=
  match strategy_params strategy_type with
  | none => none
  | some ps =>
    select_best ((today : Int) + ps.target_days) (stock_price * ps.strike_mult) candidates

/-- Recursive form of the running-best fold of `select_best`, once the best
is non-`none`. -/
def best_of (target_date : Int) (target_strike : ℚ) (b : OptContract) :
    List OptContract → OptContract
  | [] => b
  | c :: rest =>
    if contract_score target_date target_strike c <
        contract_score target_date target_strike b then
      best_of target_date target_strike c rest
    else
      best_of target_date target_strike b rest

/-! ## Bulk daily-bar fetch with 429 retry (prices.py) -/

/-- One row of the grouped-daily payload: `{T, o, h, l, c, v}`. -/
structure GroupedBar where
  T : String
  o : ℚ
  h : ℚ
  l : ℚ
  c : ℚ
  v : ℚ
  deriving DecidableEq

/-- Outcome of one HTTP attempt against the grouped-daily endpoint. -/
inductive GroupedResp where
  | ok (bars : List GroupedBar)
  | rate_limited
  | failed (code : Nat)
  deriving DecidableEq

/-- `PriceService._fetch_polygon_grouped(d)`: a 429 pauses and re-issues the
identical request (in the source, by unconditional recursion); a non-200
returns `[]`; a 200 returns the results. `resp` gives the response to each
successive attempt. The source has no retry ceiling, so the recursion is
modelled with explicit fuel: `none` means the loop is still retrying after
`fuel` attempts. -/
def fetch_polygon_grouped (resp : Nat → GroupedResp) (d : Nat) (attempt : Nat) :
    Nat → Option (List GroupedBar)
  | 0 => none
  | fuel + 1 =>
    match resp attempt with
    | .rate_limited => fetch_polygon_grouped resp d (attempt + 1) fuel
    | .ok bars => some bars
    | .failed _ => some []

/-! ## Selection-loop lemmas -/

theorem select_best_eq_best_of (td : Int) (ts : ℚ) (b : OptContract)
    (l : List OptContract) :
    l.foldl (fun best c =>
      match best with
      | none => some c
      | some b2 =>
        if contract_score td ts c < contract_score td ts b2 then some c else best)
      (some b) = some (best_of td ts b l) := by
  induction l generalizing b with
  | nil => rfl
  | cons c rest ih =>
    by_cases h : contract_score td ts c < contract_score td ts b
    · simp [best_of, h, ih]
    · simp [best_of, h, ih]

theorem best_of_mem (td : Int) (ts : ℚ) (b : OptContract) (l : List OptContract) :
    best_of td ts b l = b ∨ best_of td ts b l ∈ l := by
  induction l generalizing b with
  | nil => exact Or.inl rfl
  | cons c rest ih =>
    by_cases h : contract_score td ts c < contract_score td ts b
    · simp only [best_of, if_pos h]
      rcases ih c with h1 | h1
      · exact Or.inr (by simp [h1])
      · exact Or.inr (by simp [h1])
    · simp only [best_of, if_neg h]
      rcases ih b with h1 | h1
      · exact Or.inl h1
      · exact Or.inr (by simp [h1])

theorem best_of_le (td : Int) (ts : ℚ) (b : OptContract) (l : List OptContract) :
    contract_score td ts (best_of td ts b l) ≤ contract_score td ts b ∧
      ∀ x ∈ l, contract_score td ts (best_of td ts b l) ≤ contract_score td ts x := by
  induction l generalizing b with
  | nil => exact ⟨le_refl _, by simp⟩
  | cons c rest ih =>
    by_cases h : contract_score td ts c < contract_score td ts b
    · simp only [best_of, if_pos h]
      refine ⟨le_trans (ih c).1 (le_of_lt h), ?_⟩
      intro x hx
      rcases List.mem_cons.mp hx with h1 | hx
      · rw [h1]; exact (ih c).1
      · exact (ih c).2 x hx
    · simp only [best_of, if_neg h]
      refine ⟨(ih b).1, ?_⟩
      intro x hx
      rcases List.mem_cons.mp hx with rfl | hx
      · exact le_trans (ih b).1 (not_lt.mp h)
      · exact (ih b).2 x hx

theorem best_of_first_min (td : Int) (ts : ℚ) (b : OptContract) (l : List OptContract) :
    ∃ l1 l2, b :: l = l1 ++ best_of td ts b l :: l2 ∧
      ∀ p ∈ l1, contract_score td ts (best_of td ts b l) < contract_score td ts p := by
  induction l generalizing b with
  | nil => exact ⟨[], [], rfl, by simp⟩
  | cons c rest ih =>
    by_cases h : contract_score td ts c < contract_score td ts b
    · simp only [best_of, if_pos h]
      obtain ⟨l1, l2, heq, hlt⟩ := ih c
      refine ⟨b :: l1, l2, by simpa using congrArg (b :: ·) heq, ?_⟩
      intro p hp
      rcases List.mem_cons.mp hp with rfl | hp
      · exact lt_of_le_of_lt (best_of_le td ts c rest).1 h
      · exact hlt p hp
    · simp only [best_of, if_neg h]
      obtain ⟨l1, l2, heq, hlt⟩ := ih b
      cases l1 with
      | nil =>
        simp only [List.nil_append] at heq
        refine ⟨[], c :: l2, ?_, by simp⟩
        rw [List.cons.injEq] at heq
        simp [← heq.1, ← heq.2]
      | cons hd tl =>
        simp only [List.cons_append, List.cons.injEq] at heq
        refine ⟨b :: c :: tl, l2, ?_, ?_⟩
        · simp [← heq.2]
        · intro p hp
          have hb : contract_score td ts (best_of td ts b rest) < contract_score td ts b := by
            have := hlt hd (by simp)
            rwa [← heq.1] at this
          rcases List.mem_cons.mp hp with rfl | hp
          · exact hb
          · rcases List.mem_cons.mp hp with rfl | hp
            · exact lt_of_lt_of_le hb (not_lt.mp h)
            · exact hlt p (by simp [hp])

theorem select_best_spec (td : Int) (ts : ℚ) (cands : List OptContract)
    (c : OptContract) (h : select_best td ts cands = some c) :
    c ∈ cands ∧
      (∀ c2 ∈ cands, contract_score td ts c ≤ contract_score td ts c2) ∧
      ∃ l1 l2, cands = l1 ++ c :: l2 ∧
        ∀ p ∈ l1, contract_score td ts c < contract_score td ts p := by
  cases cands with
  | nil => simp [select_best] at h
  | cons b rest =>
    rw [select_best, List.foldl_cons, select_best_eq_best_of td ts b rest,
      Option.some.injEq] at h
    subst h
    refine ⟨?_, ?_, best_of_first_min td ts b rest⟩
    · rcases best_of_mem td ts b rest with h1 | h1
      · simp [h1]
      · simp [h1]
    · intro c2 hc2
      rcases List.mem_cons.mp hc2 with h1 | hc2
      · rw [h1]; exact (best_of_le td ts b rest).1
      · exact (best_of_le td ts b rest).2 c2 hc2

/-! ## Claim C5 — contract selection -/

/-- Candidate with date distance 10 days and strike distance 1% of the
target strike 100: score 10 + 5 = 15. -/
def cexC1 : OptContract := ⟨"O:XX1", 40, 101, "put"⟩

/-- Candidate with date distance 0 and strike distance 3% of the target
strike 100: score 0 + 15 = 15 — an exact tie with `cexC1`. -/
def cexC2 : OptContract := ⟨"O:XX2", 30, 103, "put"⟩

/-- C5 counterexample: for the Short_Put preset (today = 0, price = 100, so
target expiration 30 and target strike 100), `cexC1` and `cexC2` tie at
score 15 and `cexC1` has the smaller strike distance, so the documented
tie-break (smaller strike distance first) must select `cexC1` from either
ordering; but `find_best_contract` keeps the first minimum in response
order and returns `cexC2` when `cexC2` comes first — the selected contract
does depend on the order of candidates. -/
theorem find_best_contract_order_dependent_cex :
    contract_score 30 100 cexC1 = contract_score 30 100 cexC2 ∧
    |cexC1.strike - 100| < |cexC2.strike - 100| ∧
    find_best_contract 0 100 "Short_Put" [cexC2, cexC1] = some cexC2 ∧
    find_best_contract 0 100 "Short_Put" [cexC1, cexC2] = some cexC1 ∧
    cexC1 ≠ cexC2 := by
  refine ⟨?_, ?_, ?_, ?_, by decide⟩
  · simp only [contract_score, cexC1, cexC2]
    norm_num [abs_div]
  · simp only [cexC1, cexC2]
    norm_num
  · simp only [find_best_contract, strategy_params, select_best, contract_score, cexC1, cexC2,
      List.foldl, reduceIte, String.reduceEq]
    norm_num [abs_div]
  · simp only [find_best_contract, strategy_params, select_best, contract_score, cexC1, cexC2,
      List.foldl, reduceIte, String.reduceEq]
    norm_num [abs_div]

/-- C5 (amended): for every non-empty candidate list, `find_best_contract`
returns a candidate minimizing
`score = |expiration − target_expiration| + 5.0 × |strike − target_strike| / target_strike × 100`,
and among candidates tied at the minimum it returns the one that comes
first in the API response order (ties are response-order-dependent; there
is no strike-distance/date-distance/lexical tie-break in the code). -/
theorem find_best_contract_first_min (today : Nat) (price : ℚ) (strat : String)
    (cands : List OptContract) (c : OptContract)
    (h : find_best_contract today price strat cands = some c) :
    ∃ ps, strategy_params strat = some ps ∧
      c ∈ cands ∧
      (∀ c2 ∈ cands,
        contract_score ((today : Int) + ps.target_days) (price * ps.strike_mult) c ≤
          contract_score ((today : Int) + ps.target_days) (price * ps.strike_mult) c2) ∧
      ∃ l1 l2, cands = l1 ++ c :: l2 ∧
        ∀ p ∈ l1,
          contract_score ((today : Int) + ps.target_days) (price * ps.strike_mult) c <
            contract_score ((today : Int) + ps.target_days) (price * ps.strike_mult) p := by
  unfold find_best_contract at h
  cases hps : strategy_params strat with
  | none => rw [hps] at h; cases h
  | some ps =>
    rw [hps] at h
    obtain ⟨h1, h2, h3⟩ := select_best_spec _ _ _ _ h
    exact ⟨ps, rfl, h1, h2, h3⟩

/-- Witness for C5: the theorem applied to the singleton list `[cexC2]`. -/
theorem find_best_contract_first_min_witness :
    find_best_contract 0 100 "Short_Put" [cexC2] = some cexC2 ∧ cexC2 ∈ [cexC2] := by
  refine ⟨rfl, ?_⟩
  obtain ⟨ps, hps, hmem, hmin, hsplit⟩ :=
    find_best_contract_first_min 0 100 "Short_Put" [cexC2] cexC2 rfl
  exact hmem

/-! ## Claim C2 — 429 retry has no ceiling -/

/-- C2: the spec claims the number of 429 retries for one request is
bounded by an explicit retry ceiling so that the retry process always
terminates. The source (`PriceService._fetch_polygon_grouped`) retries by
unconditional recursion with no ceiling: against an upstream that answers
429 on every attempt, no finite number of attempts produces a result —
for every fuel bound the loop is still retrying. -/
theorem fetch_polygon_grouped_no_retry_ceiling (d attempt : Nat) :
    ∀ fuel : Nat,
      fetch_polygon_grouped (fun _ => GroupedResp.rate_limited) d attempt fuel = none := by
  intro fuel
  induction fuel generalizing attempt with
  | zero => rfl
  | succ n ih => simpa [fetch_polygon_grouped] using ih (attempt + 1)

/-! ## Momentum ranking (ranking.py) -/

/-- The resolved date map handed to `calculate_ranks`: the five date labels
produced by `resolve_target_dates`. -/
structure DateMap where
  latest_trading : String
  minus_1_week : String
  minus_1_month : String
  minus_1_year : String
  minus_13_months : String

/-- One row of the DataFrame assembled in `RankingService.calculate_ranks`. -/
structure RankRow where
  ticker : String
  current_return : ℚ
  last_week_return : ℚ
  last_month_return : ℚ
  current_rank : Nat
  last_month_rank : Nat
  rank_change : Int
  deriving DecidableEq

/-- `current_return = (c_now - c_1year) / c_1year`; `none` models the NaN
produced when either input close is missing from the pivot. `close t d` is
the pivoted close of ticker `t` at date column `d`. -/
def current_return_of (close : String → String → Option ℚ) (dm : DateMap) (t : String) :
    Option ℚ :=
  match close t dm.latest_trading, close t dm.minus_1_year with
  | some cn, some cy => some ((cn - cy) / cy)
  | _, _ => none

/-- `previous_return = (c_1month - c_13months) / c_13months`. -/
def previous_return_of (close : String → String → Option ℚ) (dm : DateMap) (t : String) :
    Option ℚ :=
  match close t dm.minus_1_month, close t dm.minus_13_months with
  | some cm, some c13 => some ((cm - c13) / c13)
  | _, _ => none

/-- `last_week_return = (c_now - c_1week) / c_1week`. -/
def last_week_return_of (close : String → String → Option ℚ) (dm : DateMap) (t : String) :
    Option ℚ :=
  match close t dm.latest_trading, close t dm.minus_1_week with
  | some cn, some cw => some ((cn - cw) / cw)
  | _, _ => none

/-- Pandas `Series.rank(ascending=False, method="min")` at index `t`: one
plus the number of tickers with a strictly larger value; tickers whose
value is missing (NaN) are ignored by the ranking. -/
def rank_of (f : String → Option ℚ) (tickers : List String) (t : String) : Nat :=
  1 + tickers.countP (fun s =>
    match f s, f t with
    | some vs, some vt => decide (vt < vs)
    | _, _ => false)

/-- One assembled row of `calculate_ranks` for ticker `t`, or `none` when
any of the six columns is NaN there (the `df.dropna()` step): the three
returns are present iff all five closes are, and the two ranks and
`rank_change` are NaN exactly when the corresponding return is. -/
def rank_row_of (close : String → String → Option ℚ) (dm : DateMap)
    (tickers : List String) (t : String) : Option RankRow :=
  match current_return_of close dm t, last_week_return_of close dm t,
      previous_return_of close dm t with
  | some cr, some wr, some pr =>
    some { ticker := t, current_return := cr, last_week_return := wr,
           last_month_return := pr,
           current_rank := rank_of (current_return_of close dm) tickers t,
           last_month_rank := rank_of (previous_return_of close dm) tickers t,
           rank_change := (rank_of (previous_return_of close dm) tickers t : Int) -
             (rank_of (current_return_of close dm) tickers t : Int) }
  | _, _, _ => none

/-- Row order of `df.sort_values("current_return", ascending=False)`. -/
def ranked_le (a b : RankRow) : Prop := b.current_return ≤ a.current_return

instance : DecidableRel ranked_le := fun a b =>
  inferInstanceAs (Decidable (b.current_return ≤ a.current_return))

instance : IsTotal RankRow ranked_le := ⟨fun a b => le_total b.current_return a.current_return⟩

instance : IsTrans RankRow ranked_le := ⟨fun _ _ _ h1 h2 => le_trans h2 h1⟩

/-- `RankingService.calculate_ranks` on an input whose pivot has all five
date columns (a missing column raises `KeyError` in the source and yields
an empty result instead): assemble a row per ticker, drop NaN rows, keep
rows with `current_rank ≤ last_month_rank`, sort by `current_return`
descending. `tickers` is the pivot index (the distinct tickers of the
input). -/
def calculate_ranks (tickers : List String) (close : String → String → Option ℚ)
    (dm : DateMap) : List RankRow :=
  List.insertionSort ranked_le
    ((tickers.filterMap (rank_row_of close dm tickers)).filter
      (fun r => r.current_rank ≤ r.last_month_rank))

/-! ### Ranking lemmas -/

theorem rank_row_of_fields (close : String → String → Option ℚ) (dm : DateMap)
    (tickers : List String) (t : String) (r : RankRow)
    (h : rank_row_of close dm tickers t = some r) :
    r.ticker = t ∧
      r.current_rank = rank_of (current_return_of close dm) tickers t ∧
      r.last_month_rank = rank_of (previous_return_of close dm) tickers t := by
  unfold rank_row_of at h
  cases h1 : current_return_of close dm t with
  | none => rw [h1] at h; cases h
  | some cr =>
    cases h2 : last_week_return_of close dm t with
    | none => rw [h1, h2] at h; cases h
    | some wr =>
      cases h3 : previous_return_of close dm t with
      | none => rw [h1, h2, h3] at h; cases h
      | some pr =>
        rw [h1, h2, h3] at h
        cases h
        exact ⟨rfl, rfl, rfl⟩

theorem rank_row_of_isSome (close : String → String → Option ℚ) (dm : DateMap)
    (tickers : List String) (t : String) :
    (rank_row_of close dm tickers t).isSome ↔
      ∀ d ∈ [dm.latest_trading, dm.minus_1_week, dm.minus_1_month,
        dm.minus_1_year, dm.minus_13_months], (close t d).isSome := by
  unfold rank_row_of current_return_of last_week_return_of previous_return_of
  cases hn : close t dm.latest_trading <;>
    cases hw : close t dm.minus_1_week <;>
      cases hm : close t dm.minus_1_month <;>
        cases hy : close t dm.minus_1_year <;>
          cases h13 : close t dm.minus_13_months <;>
            simp [hn, hw, hm, hy, h13]

/-- C6: for every price input and complete date map, `calculate_ranks`
contains exactly the tickers that have all five required closes present
and satisfy `current_rank ≤ last_month_rank`, and its rows are sorted by
`current_return` in descending order. -/
theorem calculate_ranks_spec (tickers : List String)
    (close : String → String → Option ℚ) (dm : DateMap) :
    (∀ t : String,
      (∃ r ∈ calculate_ranks tickers close dm, r.ticker = t) ↔
        t ∈ tickers ∧
          (∀ d ∈ [dm.latest_trading, dm.minus_1_week, dm.minus_1_month,
            dm.minus_1_year, dm.minus_13_months], (close t d).isSome) ∧
          rank_of (current_return_of close dm) tickers t ≤
            rank_of (previous_return_of close dm) tickers t) ∧
    (calculate_ranks tickers close dm).Sorted ranked_le := by
  refine ⟨?_, List.sorted_insertionSort ranked_le _⟩
  intro t
  constructor
  · rintro ⟨r, hr, rfl⟩
    rw [calculate_ranks, List.mem_insertionSort, List.mem_filter] at hr
    obtain ⟨hmem, hrank⟩ := hr
    obtain ⟨s, hs, hrow⟩ := List.mem_filterMap.mp hmem
    obtain ⟨hticker, hcr, hlr⟩ := rank_row_of_fields close dm tickers s r hrow
    subst hticker
    refine ⟨hs, ?_, ?_⟩
    · exact (rank_row_of_isSome close dm tickers r.ticker).mp (by rw [hrow]; rfl)
    · rw [← hcr, ← hlr]
      exact of_decide_eq_true hrank
  · rintro ⟨hmem, hclose, hrank⟩
    obtain ⟨r, hrow⟩ := Option.isSome_iff_exists.mp
      ((rank_row_of_isSome close dm tickers t).mpr hclose)
    obtain ⟨hticker, hcr, hlr⟩ := rank_row_of_fields close dm tickers t r hrow
    refine ⟨r, ?_, hticker⟩
    rw [calculate_ranks, List.mem_insertionSort, List.mem_filter]
    refine ⟨List.mem_filterMap.mpr ⟨t, hmem, hrow⟩, ?_⟩
    rw [hcr, hlr]
    exact decide_eq_true hrank

/-- Constant pivot used to instantiate the ranking theorems. -/
def cexClose : String → String → Option ℚ := fun _ _ => some 1

/-- Concrete date map used to instantiate the ranking theorems. -/
def cexDm : DateMap := ⟨"d0", "d1", "d2", "d3", "d4"⟩

/-- Witness for C6: the membership characterization applied to a
one-ticker input whose five closes are all present. -/
theorem calculate_ranks_spec_witness :
    ("A" ∈ ["A"] ∧
      (∀ d ∈ [cexDm.latest_trading, cexDm.minus_1_week, cexDm.minus_1_month,
        cexDm.minus_1_year, cexDm.minus_13_months], (cexClose "A" d).isSome) ∧
      rank_of (current_return_of cexClose cexDm) ["A"] "A" ≤
        rank_of (previous_return_of cexClose cexDm) ["A"] "A") ∧
    ∃ r ∈ calculate_ranks ["A"] cexClose cexDm, r.ticker = "A" := by
  refine ⟨⟨by decide, ?_, ?_⟩, ?_⟩
  · intro d _
    rfl
  · rfl
  · exact ((calculate_ranks_spec ["A"] cexClose cexDm).1 "A").mpr
      ⟨by decide, fun d _ => rfl, by rfl⟩

/-! ## Streak bookkeeping (ranking.py, `_calculate_streaks`) -/

/-- One persisted row of a `top10_{cohort}` table as read back by
`_calculate_streaks`: ticker, streak and streak_start (dates are day
numbers; the ISO-string date order of the source is the numeric order). -/
structure SnapRow where
  ticker : String
  streak : Nat
  streak_start : Nat
  deriving DecidableEq

/-- `SELECT MAX(date) FROM top10_{cohort} WHERE date < run_date` over the
history, modelled as an association list date ↦ snapshot rows. -/
def last_snapshot_date (hist : List (Nat × List SnapRow)) (run_date : Nat) : Option Nat :=
  ((hist.map Prod.fst).filter (fun d => d < run_date)).max?

/-- `RankingService._calculate_streaks` on the incoming top-10 tickers: with
no prior snapshot everyone gets streak 1 starting today; otherwise a left
merge with the prior snapshot gives `streak = old + 1` and the old
`streak_start` for tickers present there, and `streak = 0 + 1 = 1` with
`streak_start = run_date` for the rest (`fillna`). -/
def calculate_streaks (hist : List (Nat × List SnapRow)) (current : List String)
    (run_date : Nat) : List SnapRow :=
  match last_snapshot_date hist run_date with
  | none => current.map (fun t => ⟨t, 1, run_date⟩)
  | some ld =>
    current.map (fun t =>
      match ((hist.lookup ld).getD []).find? (fun p => p.ticker == t) with
      | some p => ⟨t, p.streak + 1, p.streak_start⟩
      | none => ⟨t, 1, run_date⟩)

/-- `RankingService.extract_top_picks`: slice the top 10 of the ranked
DataFrame and compute streaks (the percent formatting and the
delete-then-insert persistence of the display copy carry no information
about the streak assignment and are omitted). -/
def extract_top_picks (hist : List (Nat × List SnapRow)) (ranked : List RankRow)
    (run_date : Nat) : List SnapRow :=
  calculate_streaks hist ((ranked.take 10).map RankRow.ticker) run_date

theorem calculate_streaks_map_ticker (hist : List (Nat × List SnapRow))
    (current : List String) (run_date : Nat) :
    (calculate_streaks hist current run_date).map SnapRow.ticker = current := by
  unfold calculate_streaks
  cases last_snapshot_date hist run_date with
  | none =>
    induction current with
    | nil => rfl
    | cons t rest ih => simpa using ih
  | some ld =>
    induction current with
    | nil => rfl
    | cons t rest ih =>
      cases hf : ((hist.lookup ld).getD []).find? (fun p => p.ticker == t) <;>
        simpa [hf] using ih

/-- C7: for every cohort history and run date, `extract_top_picks` keeps
exactly the top-10 tickers in order; the prior snapshot consulted is the
most recent one strictly before `run_date` (and none exists iff there is
no such date); a top-10 ticker found in that prior snapshot gets
`streak = prior + 1` with `streak_start` carried forward, and every other
top-10 ticker (absent from the prior snapshot, or no prior snapshot at
all) gets `streak = 1` and `streak_start = run_date`. -/
theorem extract_top_picks_streak_spec (hist : List (Nat × List SnapRow))
    (ranked : List RankRow) (run_date : Nat) :
    ((extract_top_picks hist ranked run_date).map SnapRow.ticker =
      (ranked.take 10).map RankRow.ticker) ∧
    (∀ d, last_snapshot_date hist run_date = some d →
      d ∈ hist.map Prod.fst ∧ d < run_date ∧
        ∀ d2 ∈ hist.map Prod.fst, d2 < run_date → d2 ≤ d) ∧
    (last_snapshot_date hist run_date = none →
      ∀ d2 ∈ hist.map Prod.fst, ¬ d2 < run_date) ∧
    (∀ row ∈ extract_top_picks hist ranked run_date,
      match last_snapshot_date hist run_date with
      | some ld =>
        match ((hist.lookup ld).getD []).find? (fun p => p.ticker == row.ticker) with
        | some p => row.streak = p.streak + 1 ∧ row.streak_start = p.streak_start
        | none => row.streak = 1 ∧ row.streak_start = run_date
      | none => row.streak = 1 ∧ row.streak_start = run_date) := by
  refine ⟨calculate_streaks_map_ticker hist _ run_date, ?_, ?_, ?_⟩
  · intro d hd
    unfold last_snapshot_date at hd
    rw [List.max?_eq_some_iff] at hd
    · obtain ⟨hmem, hle⟩ := hd
      rw [List.mem_filter] at hmem
      refine ⟨hmem.1, of_decide_eq_true hmem.2, ?_⟩
      intro d2 hd2 hlt
      exact hle d2 (List.mem_filter.mpr ⟨hd2, decide_eq_true hlt⟩)
    all_goals simp [le_total]
  · intro h d2 hd2 hlt
    unfold last_snapshot_date at h
    rw [List.max?_eq_none_iff] at h
    have := List.filter_eq_nil_iff.mp h d2 hd2
    simp at this
    exact absurd hlt (by simpa using this)
  · intro row hrow
    unfold extract_top_picks calculate_streaks at hrow
    cases h : last_snapshot_date hist run_date with
    | none =>
      rw [h] at hrow
      obtain ⟨t, _, rfl⟩ := List.mem_map.mp hrow
      exact ⟨rfl, rfl⟩
    | some ld =>
      rw [h] at hrow
      obtain ⟨t, _, rfl⟩ := List.mem_map.mp hrow
      cases hf : ((hist.lookup ld).getD []).find? (fun p => p.ticker == t) with
      | none => simp [hf]
      | some p => simp [hf]

/-- Concrete one-snapshot history for the streak witness: on day 5 the
ticker A was present with streak 2 started on day 3. -/
def cexHist : List (Nat × List SnapRow) := [(5, [⟨"A", 2, 3⟩])]

/-- Concrete ranked row for the streak witness. -/
def cexRank : RankRow := ⟨"A", 0, 0, 0, 1, 1, 0⟩

/-- Witness for C7: with one prior snapshot on day 5, running on day 12
continues the streak of A to 3 and carries its start day 3 forward. -/
theorem extract_top_picks_streak_spec_witness :
    (⟨"A", 3, 3⟩ : SnapRow) ∈ extract_top_picks cexHist [cexRank] 12 ∧
    (match last_snapshot_date cexHist 12 with
     | some ld =>
       match ((cexHist.lookup ld).getD []).find?
           (fun p => p.ticker == (⟨"A", 3, 3⟩ : SnapRow).ticker) with
       | some p => (⟨"A", 3, 3⟩ : SnapRow).streak = p.streak + 1 ∧
           (⟨"A", 3, 3⟩ : SnapRow).streak_start = p.streak_start
       | none => (⟨"A", 3, 3⟩ : SnapRow).streak = 1 ∧
           (⟨"A", 3, 3⟩ : SnapRow).streak_start = 12
     | none => (⟨"A", 3, 3⟩ : SnapRow).streak = 1 ∧
         (⟨"A", 3, 3⟩ : SnapRow).streak_start = 12) := by
  have hmem : (⟨"A", 3, 3⟩ : SnapRow) ∈ extract_top_picks cexHist [cexRank] 12 := by decide
  exact ⟨hmem, (extract_top_picks_streak_spec cexHist [cexRank] 12).2.2.2 _ hmem⟩

/-! ## Trading-day resolution and the benchmark guarantee (prices.py) -/

/-- One row of the `daily_prices` table. -/
structure DbRow where
  ticker : String
  date : Nat
  o : ℚ
  h : ℚ
  l : ℚ
  c : ℚ
  v : ℚ
  deriving DecidableEq

/-- The persisted store. -/
abbrev Db := List DbRow

/-- A single-ticker daily bar as returned by the ticker-range endpoint. -/
structure Bar where
  o : ℚ
  h : ℚ
  l : ℚ
  c : ℚ
  v : ℚ
  deriving DecidableEq

/-- `INSERT OR REPLACE` keyed on `(ticker, date)`. -/
def db_upsert (db : Db) (row : DbRow) : Db :=
  row :: db.filter (fun r => !(r.ticker == row.ticker && r.date == row.date))

/-- `PriceService._save_to_db`: filter the grouped results against the
ticker whitelist, then bulk `INSERT OR REPLACE`. -/
def save_to_db (valid : List String) (db : Db) (results : List GroupedBar) (d : Nat) : Db :=
  (results.filter (fun r => valid.contains r.T)).foldl
    (fun acc r => db_upsert acc ⟨r.T, d, r.o, r.h, r.l, r.c, r.v⟩) db

/-- `PriceService._is_date_in_db`: more than 800 rows stored for the date. -/
def is_date_in_db (db : Db) (d : Nat) : Bool :=
  800 < db.countP (fun r => r.date == d)

/-- Presence of a `(ticker, date)` bar in the store. -/
def has_bar (db : Db) (t : String) (d : Nat) : Bool :=
  db.any (fun r => r.ticker == t && r.date == d)

/-- `PriceService._fetch_and_save_benchmark`: return unchanged if the
`(ticker, date)` row already exists; otherwise issue the single-ticker
range request (the `bench` oracle) and save the bar if the request yields
one. When the request fails or returns no results the store is left
unchanged and no error is raised. -/
def fetch_and_save_benchmark (bench : Nat → Option Bar) (db : Db)
    (t : String) (d : Nat) : Db :=
  if has_bar db t d then db
  else
    match bench d with
    | some r => db_upsert db ⟨t, d, r.o, r.h, r.l, r.c, r.v⟩
    | none => db

/-- The weekend loop of `_ensure_date_data`: `while weekday >= 5: d -= 1`,
with weekday `d % 7` (Monday = 0), so a Sunday steps back two days and a
Saturday one. -/
def skip_weekend (d : Nat) : Nat :=
  if d % 7 = 6 then d - 2 else if d % 7 = 5 then d - 1 else d

/-- The `for _ in range(max_backtrack + 1)` loop of
`PriceService._ensure_date_data`. `bulk d` is the eventual value of
`_fetch_polygon_grouped(d)` (`[]` covers both an empty trading day and a
failed fetch) and `bench` is the benchmark single-ticker endpoint. Returns
the resolved date with the final store, or `none` for the `RuntimeError`
raised when the backtrack budget is exhausted. -/
def ensure_loop (bulk : Nat → List GroupedBar) (bench : Nat → Option Bar)
    (valid : List String) (db : Db) (curr : Nat) : Nat → Option (Nat × Db)
  | 0 => none
  | fuel + 1 =>
    let c := skip_weekend curr
    if is_date_in_db db c then
      some (c, fetch_and_save_benchmark bench db "VOO" c)
    else
      match bulk c with
      | [] => ensure_loop bulk bench valid db (c - 1) fuel
      | b :: bs =>
        some (c, fetch_and_save_benchmark bench (save_to_db valid db (b :: bs) c) "VOO" c)

/-- `PriceService._ensure_date_data` with the default `max_backtrack = 5`:
six loop iterations. -/
def ensure_date_data (bulk : Nat → List GroupedBar) (bench : Nat → Option Bar)
    (valid : List String) (db : Db) (target : Nat) : Option (Nat × Db) :=
  ensure_loop bulk bench valid db target 6

/-! ### Store lemmas -/

theorem has_bar_upsert_mono (db : Db) (row : DbRow) (t : String) (d : Nat)
    (hmem : has_bar db t d = true) : has_bar (db_upsert db row) t d = true := by
  unfold has_bar at hmem ⊢
  unfold db_upsert
  obtain ⟨r, hr, hkey⟩ := List.any_eq_true.mp hmem
  by_cases hk : (t == row.ticker && d == row.date) = true
  · refine List.any_eq_true.mpr ⟨row, by simp, ?_⟩
    simp only [Bool.and_eq_true, beq_iff_eq] at hk ⊢
    exact ⟨hk.1.symm, hk.2.symm⟩
  · refine List.any_eq_true.mpr ⟨r, List.mem_cons_of_mem _ ?_, hkey⟩
    simp only [Bool.and_eq_true, beq_iff_eq] at hkey
    refine List.mem_filter.mpr ⟨hr, ?_⟩
    rw [Bool.not_eq_true', hkey.1, hkey.2]
    cases hbool : (t == row.ticker && d == row.date) with
    | true => exact absurd hbool hk
    | false => rfl

theorem has_bar_upsert_self (db : Db) (row : DbRow) :
    has_bar (db_upsert db row) row.ticker row.date = true := by
  unfold has_bar db_upsert
  exact List.any_eq_true.mpr ⟨row, by simp, by simp⟩

theorem has_bar_save_mono (valid : List String) (results : List GroupedBar)
    (d2 : Nat) (db : Db) (t : String) (d : Nat)
    (hmem : has_bar db t d = true) :
    has_bar (save_to_db valid db results d2) t d = true := by
  unfold save_to_db
  generalize results.filter (fun r => valid.contains r.T) = rows
  induction rows generalizing db with
  | nil => exact hmem
  | cons r rest ih => exact ih _ (has_bar_upsert_mono db _ t d hmem)

theorem has_bar_fetch_bench (bench : Nat → Option Bar) (db : Db) (d : Nat)
    (hvoo : (bench d).isSome = true ∨ has_bar db "VOO" d = true) :
    has_bar (fetch_and_save_benchmark bench db "VOO" d) "VOO" d = true := by
  unfold fetch_and_save_benchmark
  by_cases hex : has_bar db "VOO" d = true
  · simp [hex]
  · rw [if_neg hex]
    cases hb : bench d with
    | some r => exact has_bar_upsert_self db ⟨"VOO", d, r.o, r.h, r.l, r.c, r.v⟩
    | none =>
      rcases hvoo with h1 | h1
      · rw [hb] at h1; cases h1
      · exact absurd h1 hex

/-! ### Claim C3 -/

/-- Bulk oracle for the C3 counterexample: day 4 trades with a single
non-benchmark bar, all other days are empty. -/
def cexBulk : Nat → List GroupedBar := fun d =>
  if d == 4 then [⟨"AAPL", 1, 1, 1, 1, 1⟩] else []

/-- Benchmark oracle for the C3 counterexample: the single-ticker VOO
request never yields a bar (non-200 response or empty results). -/
def cexBenchFail : Nat → Option Bar := fun _ => none

/-- Whitelist for the C3 instances. -/
def cexValid : List String := ["AAPL", "VOO"]

/-- C3 counterexample: starting from an empty store with target day 4 (a
weekday), the resolver succeeds — the bulk fetch yields data and the date
resolves — but the dedicated benchmark fetch fails silently, so the
resolver returns a resolved date for which no VOO bar exists in the store.
The benchmark-presence postcondition does not hold on every successful
return path. -/
theorem ensure_date_data_benchmark_cex :
    ensure_date_data cexBulk cexBenchFail cexValid [] 4 =
      some (4, [⟨"AAPL", 4, 1, 1, 1, 1, 1⟩]) ∧
    has_bar [⟨"AAPL", 4, 1, 1, 1, 1, 1⟩] "VOO" 4 = false := by
  exact ⟨by decide, by decide⟩

/-- C3 (amended): on every successful return path `_ensure_date_data` does
invoke the dedicated single-ticker benchmark fetch for the resolved date,
and the VOO bar is present in the returned store provided that fetch
yields a bar or the bar was already stored; when the benchmark request
fails and no bar was stored, the resolver still returns successfully
without the benchmark bar (the postcondition is attempted, not
enforced). -/
theorem ensure_date_data_benchmark (bulk : Nat → List GroupedBar)
    (bench : Nat → Option Bar) (valid : List String) (db : Db) (target d : Nat)
    (db2 : Db) (h : ensure_date_data bulk bench valid db target = some (d, db2))
    (hvoo : (bench d).isSome = true ∨ has_bar db "VOO" d = true) :
    has_bar db2 "VOO" d = true := by
  unfold ensure_date_data at h
  generalize hfuel : 6 = fuel at h
  clear hfuel
  induction fuel generalizing target with
  | zero => cases h
  | succ n ih =>
    rw [ensure_loop] at h
    by_cases hdb : is_date_in_db db (skip_weekend target) = true
    · rw [if_pos hdb, Option.some.injEq, Prod.mk.injEq] at h
      obtain ⟨rfl, rfl⟩ := h
      exact has_bar_fetch_bench bench db _ hvoo
    · rw [if_neg hdb] at h
      cases hbulk : bulk (skip_weekend target) with
      | nil =>
        rw [hbulk] at h
        exact ih _ h
      | cons b bs =>
        rw [hbulk, Option.some.injEq, Prod.mk.injEq] at h
        obtain ⟨rfl, rfl⟩ := h
        refine has_bar_fetch_bench bench _ _ ?_
        rcases hvoo with h1 | h1
        · exact Or.inl h1
        · exact Or.inr (has_bar_save_mono valid _ _ db _ _ h1)

/-- Benchmark oracle that succeeds, for the C3 witness. -/
def cexBenchOk : Nat → Option Bar := fun _ => some ⟨2, 2, 2, 2, 2⟩

/-- Witness for C3 (amended): when the benchmark request yields a bar, the
resolved store contains the VOO bar for the resolved date. -/
theorem ensure_date_data_benchmark_witness :
    (ensure_date_data cexBulk cexBenchOk cexValid [] 4 =
        some (4, [⟨"VOO", 4, 2, 2, 2, 2, 2⟩, ⟨"AAPL", 4, 1, 1, 1, 1, 1⟩]) ∧
      (cexBenchOk 4).isSome = true) ∧
    has_bar [⟨"VOO", 4, 2, 2, 2, 2, 2⟩, ⟨"AAPL", 4, 1, 1, 1, 1, 1⟩] "VOO" 4 = true := by
  refine ⟨⟨?_, rfl⟩, ?_⟩
  · decide
  · exact ensure_date_data_benchmark cexBulk cexBenchOk cexValid [] 4 4 _
      (by decide) (Or.inl rfl)

/-! ## Position tracker (tracker.py) -/

/-- Position / option-leg lifecycle status. -/
inductive Status where
  | OPEN
  | CLOSED
  deriving DecidableEq

/-- One row of `trade_log.csv`. Dates are day numbers, prices rationals,
missing (NaN) fields `none`. -/
structure StockRow where
  trade_id : String
  cohort : String
  ticker : String
  signal_date : Option Nat
  buy_date : Option Nat
  buy_price : Option ℚ
  spy_buy_price : Option ℚ
  drop_date : Option Nat
  sell_date : Option Nat
  sell_price : Option ℚ
  spy_sell_price : Option ℚ
  status : Status
  user_action : String
  deriving DecidableEq

/-- One row of `option_log.csv`. -/
structure OptRow where
  trade_id : String
  strategy : String
  option_symbol : String
  expiration : Int
  strike : ℚ
  contract_type : String
  entry_date : Option Nat
  entry_price : Option ℚ
  exit_date : Option Nat
  exit_price : Option ℚ
  status : Status
  deriving DecidableEq

/-- The two persisted logs of `TradeTracker`. -/
structure Logs where
  stocks : List StockRow
  opts : List OptRow
  deriving DecidableEq

/-- `trade_id = f"{t}_{run_date}"`. -/
def mkTradeId (t : String) (run_date : Nat) : String :=
  t ++ "_" ++ toString run_date

/-- The fixed strategy list of `_pick_options_for_trade`. -/
def strategies : List String := ["100d_Call", "500d_LEAP", "Short_Put"]

/-- The legs appended by `_pick_options_for_trade` for a list of
strategies: one leg per strategy for which the option picker
(`find_best_contract`, abstracted as the `picker` oracle taking ticker,
reference price and strategy) finds a contract. -/
def pick_legs (picker : String → ℚ → String → Option OptContract)
    (ticker : String) (price : ℚ) (tid : String) (L : List String) : List OptRow :=
  L.filterMap (fun strat =>
    (picker ticker price strat).map (fun c =>
      { trade_id := tid, strategy := strat, option_symbol := c.symbol,
        expiration := c.expiration, strike := c.strike,
        contract_type := c.contract_type,
        entry_date := none, entry_price := none, exit_date := none,
        exit_price := none, status := Status.OPEN }))

/-- `TradeTracker._pick_options_for_trade` over its fixed strategy list. -/
def pick_options_for_trade (picker : String → ℚ → String → Option OptContract)
    (ticker : String) (price : ℚ) (tid : String) : List OptRow :=
  pick_legs picker ticker price tid strategies

/-- `get_reference_price`: first matching close in the run's snapshot,
0.0 when absent. -/
def get_reference_price (prices : String → Option ℚ) (t : String) : ℚ :=
  (prices t).getD 0

/-- The Position row appended for a brand-new signal. -/
def new_stock_row (cohort t : String) (run_date : Nat) : StockRow :=
  { trade_id := mkTradeId t run_date, cohort := cohort, ticker := t,
    signal_date := some run_date, buy_date := none, buy_price := none,
    spy_buy_price := none, drop_date := none, sell_date := none,
    sell_price := none, spy_sell_price := none, status := Status.OPEN,
    user_action := "WATCH" }

/-- `set(top_5["ticker"])`: the distinct tickers of the first five rows. -/
def current_tickers_of (top10 : List String) : List String :=
  (top10.take 5).dedup

/-- The OPEN positions of this cohort. -/
def open_trades_of (stocks : List StockRow) (cohort : String) : List StockRow :=
  stocks.filter (fun r => r.cohort == cohort && r.status == Status.OPEN)

/-- `new_buys = current_tickers - open_tickers`. -/
def new_buys_of (stocks : List StockRow) (top10 : List String) (cohort : String) :
    List String :=
  (current_tickers_of top10).filter
    (fun t => !(((open_trades_of stocks cohort).map StockRow.ticker).contains t))

/-- Option legs accumulated while handling brand-new signals: picked only
when the snapshot reference price is positive. -/
def phase1_opts (picker : String → ℚ → String → Option OptContract)
    (prices : String → Option ℚ) (run_date : Nat) (new_buys : List String) :
    List OptRow :=
  new_buys.flatMap (fun t =>
    let p := get_reference_price prices t
    if 0 < p then pick_options_for_trade picker t p (mkTradeId t run_date) else [])

/-- The backfill loop over existing OPEN trades: skip a trade when legs for
its trade_id already exist in the option log or are already pending in the
accumulated new legs; otherwise use the snapshot price, falling back to
the recorded buy price, and pick legs when that reference is positive. -/
def phase2_step (picker : String → ℚ → String → Option OptContract)
    (prices : String → Option ℚ) (opts : List OptRow) (row : StockRow)
    (acc : List OptRow) : List OptRow :=
  if (opts.filter (fun o => o.trade_id == row.trade_id)).isEmpty &&
      !(acc.any (fun o => o.trade_id == row.trade_id)) then
    (let ref0 := get_reference_price prices row.ticker
     let ref := if ref0 == 0 && row.buy_price.isSome then row.buy_price.getD 0
       else ref0
     if 0 < ref then
       acc ++ pick_options_for_trade picker row.ticker ref row.trade_id
     else acc)
  else acc

def phase2_opts (picker : String → ℚ → String → Option OptContract)
    (prices : String → Option ℚ) (opts : List OptRow)
    (open_trades : List StockRow) (init : List OptRow) : List OptRow :=
  open_trades.foldl (fun acc row => phase2_step picker prices opts row acc) init

/-- The drop mask: OPEN position of this cohort whose ticker left the
current top-5 set. -/
def dropping_row (cohort : String) (current : List String) (r : StockRow) : Bool :=
  r.cohort == cohort && r.status == Status.OPEN && !(current.contains r.ticker)

/-- Close every dropped position: set `drop_date = run_date` and
`status = CLOSED`. -/
def close_dropped (run_date : Nat) (cohort : String) (current : List String)
    (stocks : List StockRow) : List StockRow :=
  stocks.map (fun r =>
    if dropping_row cohort current r then
      { r with drop_date := some run_date, status := Status.CLOSED }
    else r)

/-- Transition the OPEN legs of every dropping trade_id to CLOSED. -/
def close_dropped_opts (dropping_ids : List String) (opts : List OptRow) : List OptRow :=
  opts.map (fun o =>
    if dropping_ids.contains o.trade_id && o.status == Status.OPEN then
      { o with status := Status.CLOSED }
    else o)

/-- `TradeTracker.process_signals(current_top10, prices_df, cohort,
run_date)`: detect new buys among the top-5, append one OPEN Position and
pick option legs for each; backfill legs for existing OPEN trades; then
close every OPEN position of the cohort that left the top-5 and CLOSE its
OPEN legs. -/
def process_signals (picker : String → ℚ → String → Option OptContract)
    (logs : Logs) (top10 : List String) (prices : String → Option ℚ)
    (cohort : String) (run_date : Nat) : Logs :=
  let current := current_tickers_of top10
  let new_buys := new_buys_of logs.stocks top10 cohort
  let new_opts := phase2_opts picker prices logs.opts (open_trades_of logs.stocks cohort)
      (phase1_opts picker prices run_date new_buys)
  let stocks1 := logs.stocks ++ new_buys.map (fun t => new_stock_row cohort t run_date)
  let dropping_ids := (stocks1.filter (dropping_row cohort current)).map StockRow.trade_id
  ⟨close_dropped run_date cohort current stocks1,
    close_dropped_opts dropping_ids (logs.opts ++ new_opts)⟩

/-! ### Claim C1 — OPEN-position exclusivity -/

/-- Number of OPEN positions for a `(cohort, ticker)` pair. -/
def openCount (stocks : List StockRow) (c t : String) : Nat :=
  stocks.countP (fun r => r.cohort == c && r.ticker == t && r.status == Status.OPEN)

/-- The state invariant: at most one OPEN Position per (cohort, ticker). -/
def StockInv (stocks : List StockRow) : Prop :=
  ∀ c t, openCount stocks c t ≤ 1

theorem mem_open_tickers_iff (stocks : List StockRow) (cohort t : String) :
    t ∈ (open_trades_of stocks cohort).map StockRow.ticker ↔
      0 < openCount stocks cohort t := by
  rw [openCount, List.countP_pos_iff]
  constructor
  · intro h
    obtain ⟨r, hr, rfl⟩ := List.mem_map.mp h
    obtain ⟨hmem, hp⟩ := List.mem_filter.mp hr
    refine ⟨r, hmem, ?_⟩
    simp only [Bool.and_eq_true, beq_iff_eq] at hp
    simp [hp.1, hp.2]
  · rintro ⟨r, hmem, hp⟩
    simp only [Bool.and_eq_true, beq_iff_eq] at hp
    refine List.mem_map.mpr ⟨r, List.mem_filter.mpr ⟨hmem, ?_⟩, hp.1.2⟩
    simp only [Bool.and_eq_true, beq_iff_eq]
    exact ⟨hp.1.1, hp.2⟩

theorem mem_new_buys_iff (stocks : List StockRow) (top10 : List String)
    (cohort t : String) :
    t ∈ new_buys_of stocks top10 cohort ↔
      t ∈ current_tickers_of top10 ∧ openCount stocks cohort t = 0 := by
  rw [new_buys_of, List.mem_filter]
  constructor
  · rintro ⟨h1, h2⟩
    refine ⟨h1, ?_⟩
    rw [Bool.not_eq_true'] at h2
    simp only [List.elem_eq_mem, decide_eq_false_iff_not] at h2
    rw [mem_open_tickers_iff] at h2
    omega
  · rintro ⟨h1, h2⟩
    refine ⟨h1, ?_⟩
    rw [Bool.not_eq_true']
    simp only [List.elem_eq_mem, decide_eq_false_iff_not]
    rw [mem_open_tickers_iff, h2]
    simp

theorem countP_congr_eq {α : Type} (l : List α) (p q : α → Bool)
    (h : ∀ a ∈ l, p a = q a) : l.countP p = l.countP q := by
  induction l with
  | nil => rfl
  | cons a rest ih =>
    rw [List.countP_cons, List.countP_cons, h a (by simp),
      ih (fun x hx => h x (by simp [hx]))]

theorem countP_beq_eq_zero_of_not_mem (l : List String) (t : String)
    (hm : t ∉ l) : l.countP (fun x => x == t) = 0 := by
  rw [List.countP_eq_zero]
  intro x hx
  simp only [beq_iff_eq]
  rintro rfl
  exact hm hx

theorem countP_beq_eq_one_of_nodup_mem (l : List String) (t : String)
    (h : l.Nodup) (hm : t ∈ l) : l.countP (fun x => x == t) = 1 := by
  induction l with
  | nil => cases hm
  | cons a rest ih =>
    rw [List.countP_cons]
    rcases List.nodup_cons.mp h with ⟨hna, hrest⟩
    rcases List.mem_cons.mp hm with rfl | hmem
    · rw [countP_beq_eq_zero_of_not_mem rest t hna]
      simp
    · have ha : (a == t) = false := by
        simp only [beq_eq_false_iff_ne, ne_eq]
        rintro rfl
        exact hna hmem
      simp [ha, ih hrest hmem]

theorem new_buys_nodup (stocks : List StockRow) (top10 : List String) (cohort : String) :
    (new_buys_of stocks top10 cohort).Nodup :=
  List.Nodup.filter _ (List.nodup_dedup _)

theorem openCount_append (l1 l2 : List StockRow) (c t : String) :
    openCount (l1 ++ l2) c t = openCount l1 c t + openCount l2 c t :=
  List.countP_append _ l1 l2

theorem openCount_new_rows (new_buys : List String) (cohort t : String) (run_date : Nat) :
    openCount (new_buys.map (fun t2 => new_stock_row cohort t2 run_date)) cohort t =
      new_buys.countP (fun x => x == t) := by
  rw [openCount, List.countP_map]
  exact countP_congr_eq _ _ _ (fun a _ => by simp [new_stock_row, Function.comp])

theorem openCount_new_rows_other (new_buys : List String) (c cohort t : String)
    (run_date : Nat) (hc : c ≠ cohort) :
    openCount (new_buys.map (fun t2 => new_stock_row cohort t2 run_date)) c t = 0 := by
  rw [openCount, List.countP_map, List.countP_eq_zero]
  intro a _
  have hcc : (cohort == c) = false := by
    simp only [beq_eq_false_iff_ne, ne_eq]
    exact fun h => hc h.symm
  simp [new_stock_row, Function.comp, hcc]

theorem openCount_close_dropped_le (run_date : Nat) (cohort : String)
    (current : List String) (stocks : List StockRow) (c t : String) :
    openCount (close_dropped run_date cohort current stocks) c t ≤
      openCount stocks c t := by
  rw [openCount, close_dropped, List.countP_map, openCount]
  apply List.countP_mono_left
  intro r _ hp
  simp only [Function.comp] at hp
  by_cases hd : dropping_row cohort current r = true
  · rw [if_pos hd] at hp
    simp at hp
  · rwa [if_neg hd] at hp

theorem openCount_close_dropped_of_mem (run_date : Nat) (cohort : String)
    (current : List String) (stocks : List StockRow) (c t : String)
    (hmem : t ∈ current) :
    openCount (close_dropped run_date cohort current stocks) c t =
      openCount stocks c t := by
  rw [openCount, close_dropped, List.countP_map, openCount]
  apply countP_congr_eq
  intro r _
  simp only [Function.comp]
  by_cases ht : r.ticker = t
  · have hdrop : dropping_row cohort current r = false := by
      rw [dropping_row]
      simp [ht, hmem]
    rw [if_neg (by simp [hdrop])]
  · have hbt : (r.ticker == t) = false := by simp [ht]
    by_cases hd : dropping_row cohort current r = true
    · rw [if_pos hd]
      simp [hbt]
    · rw [if_neg hd]

/-- C1: `process_signals` preserves the invariant "at most one OPEN
Position per (cohort, ticker)": a ticker in the top-5 with no OPEN
Position for (cohort, ticker) ends the run with exactly one OPEN Position
(exactly one new row is appended for it), while a ticker that already has
an OPEN Position never acquires a second one (the invariant bound still
holds for it afterwards). -/
theorem process_signals_open_exclusive (picker : String → ℚ → String → Option OptContract)
    (logs : Logs) (top10 : List String) (prices : String → Option ℚ)
    (cohort : String) (run_date : Nat) (hInv : StockInv logs.stocks) :
    StockInv (process_signals picker logs top10 prices cohort run_date).stocks ∧
    ∀ t ∈ top10.take 5, openCount logs.stocks cohort t = 0 →
      openCount (process_signals picker logs top10 prices cohort run_date).stocks cohort t
        = 1 := by
  have hstocks : (process_signals picker logs top10 prices cohort run_date).stocks =
      close_dropped run_date cohort (current_tickers_of top10)
        (logs.stocks ++ (new_buys_of logs.stocks top10 cohort).map
          (fun t => new_stock_row cohort t run_date)) := rfl
  have hone : ∀ t, t ∈ new_buys_of logs.stocks top10 cohort →
      openCount (process_signals picker logs top10 prices cohort run_date).stocks cohort t
        = 1 := by
    intro t hb
    obtain ⟨hcur, hzero⟩ := (mem_new_buys_iff logs.stocks top10 cohort t).mp hb
    rw [hstocks, openCount_close_dropped_of_mem run_date cohort _ _ cohort t hcur,
      openCount_append, hzero, openCount_new_rows,
      countP_beq_eq_one_of_nodup_mem _ t (new_buys_nodup logs.stocks top10 cohort) hb]
  have hle : ∀ c t,
      openCount ((new_buys_of logs.stocks top10 cohort).map
        (fun t2 => new_stock_row cohort t2 run_date)) c t = 0 →
      openCount (process_signals picker logs top10 prices cohort run_date).stocks c t ≤
        openCount logs.stocks c t := by
    intro c t hz
    rw [hstocks]
    refine le_trans (openCount_close_dropped_le _ _ _ _ _ _) ?_
    rw [openCount_append, hz]
    exact Nat.le_refl _
  constructor
  · intro c t
    by_cases hc : c = cohort
    · rw [hc]
      by_cases hb : t ∈ new_buys_of logs.stocks top10 cohort
      · exact le_of_eq (hone t hb)
      · refine le_trans (hle cohort t ?_) (hInv cohort t)
        rw [openCount_new_rows, countP_beq_eq_zero_of_not_mem _ _ hb]
    · refine le_trans (hle c t ?_) (hInv c t)
      exact openCount_new_rows_other _ c cohort t run_date hc
  · intro t ht hzero
    exact hone t ((mem_new_buys_iff logs.stocks top10 cohort t).mpr
      ⟨List.mem_dedup.mpr ht, hzero⟩)

/-- Witness for C1: on an empty log, the ticker X entering the top-5 of
cohort c ends the run with exactly one OPEN position. -/
theorem process_signals_open_exclusive_witness :
    StockInv ([] : List StockRow) ∧ "X" ∈ (["X"].take 5) ∧
    openCount [] "c" "X" = 0 ∧
    openCount (process_signals (fun _ _ _ => none) ⟨[], []⟩ ["X"] (fun _ => none)
      "c" 7).stocks "c" "X" = 1 := by
  have hInv : StockInv ([] : List StockRow) := fun c t => by simp [openCount]
  refine ⟨hInv, by decide, by decide, ?_⟩
  exact (process_signals_open_exclusive (fun _ _ _ => none) ⟨[], []⟩ ["X"]
    (fun _ => none) "c" 7 hInv).2 "X" (by decide) (by decide)

/-! ### Claim C4 — option legs per (trade_id, strategy) -/

/-- Number of option legs recorded for a `(trade_id, strategy)` pair. -/
def keyCount (opts : List OptRow) (tid strat : String) : Nat :=
  opts.countP (fun o => o.trade_id == tid && o.strategy == strat)

theorem mkTradeId_inj (t1 t2 : String) (d : Nat) (h : mkTradeId t1 d = mkTradeId t2 d) :
    t1 = t2 := by
  unfold mkTradeId at h
  have h2 := congrArg String.data h
  simp only [String.data_append, List.append_assoc] at h2
  exact String.ext (List.append_cancel_right h2)

theorem keyCount_append (l1 l2 : List OptRow) (tid strat : String) :
    keyCount (l1 ++ l2) tid strat = keyCount l1 tid strat + keyCount l2 tid strat :=
  List.countP_append _ l1 l2

theorem mem_pick_legs (picker : String → ℚ → String → Option OptContract)
    (ticker : String) (price : ℚ) (tid2 : String) (L : List String) (o : OptRow)
    (ho : o ∈ pick_legs picker ticker price tid2 L) :
    o.trade_id = tid2 ∧ o.strategy ∈ L := by
  obtain ⟨st, hst, hmk⟩ := List.mem_filterMap.mp ho
  obtain ⟨c, _, hco⟩ := Option.map_eq_some'.mp hmk
  rw [← hco]
  exact ⟨rfl, hst⟩

theorem keyCount_pick_legs_le (picker : String → ℚ → String → Option OptContract)
    (ticker : String) (price : ℚ) (tid2 tid strat : String) (L : List String) :
    keyCount (pick_legs picker ticker price tid2 L) tid strat ≤
      L.countP (fun s => s == strat) := by
  induction L with
  | nil => simp [keyCount, pick_legs]
  | cons s rest ih =>
    rw [pick_legs, List.filterMap_cons]
    cases hp : picker ticker price s with
    | none =>
      rw [List.countP_cons]
      exact le_trans ih (Nat.le_add_right _ _)
    | some c =>
      simp only [Option.map_some']
      rw [keyCount, List.countP_cons, List.countP_cons]
      refine Nat.add_le_add ih ?_
      by_cases hs : (s == strat) = true
      · by_cases ht2 : (tid2 == tid) = true <;> simp [hs, ht2]
      · simp [hs]

theorem keyCount_pick_legs_ne (picker : String → ℚ → String → Option OptContract)
    (ticker : String) (price : ℚ) (tid2 tid strat : String) (L : List String)
    (hne : tid2 ≠ tid) :
    keyCount (pick_legs picker ticker price tid2 L) tid strat = 0 := by
  rw [keyCount, List.countP_eq_zero]
  intro o ho
  have htid := (mem_pick_legs picker ticker price tid2 L o ho).1
  simp [htid, hne]

theorem strategies_countP_le_one (strat : String) :
    strategies.countP (fun s => s == strat) ≤ 1 := by
  by_cases h1 : strat = "100d_Call"
  · subst h1; decide
  · by_cases h2 : strat = "500d_LEAP"
    · subst h2; decide
    · by_cases h3 : strat = "Short_Put"
      · subst h3; decide
      · rw [countP_beq_eq_zero_of_not_mem _ _ (by simp [strategies, h1, h2, h3])]
        exact Nat.zero_le 1

theorem keyCount_pick_le_one (picker : String → ℚ → String → Option OptContract)
    (ticker : String) (price : ℚ) (tid2 tid strat : String) :
    keyCount (pick_options_for_trade picker ticker price tid2) tid strat ≤ 1 :=
  le_trans (keyCount_pick_legs_le picker ticker price tid2 tid strat strategies)
    (strategies_countP_le_one strat)

theorem keyCount_phase1_le_one (picker : String → ℚ → String → Option OptContract)
    (prices : String → Option ℚ) (run_date : Nat) (nb : List String)
    (hnodup : nb.Nodup) (tid strat : String) :
    keyCount (phase1_opts picker prices run_date nb) tid strat ≤ 1 := by
  induction nb with
  | nil => simp [phase1_opts, keyCount]
  | cons t rest ih =>
    rcases List.nodup_cons.mp hnodup with ⟨hnt, hrest⟩
    rw [phase1_opts, List.flatMap_cons, keyCount_append]
    by_cases htid : mkTradeId t run_date = tid
    · have htail : keyCount (rest.flatMap (fun t2 =>
          let p := get_reference_price prices t2
          if 0 < p then pick_options_for_trade picker t2 p (mkTradeId t2 run_date)
          else [])) tid strat = 0 := by
        rw [keyCount, List.countP_eq_zero]
        intro o ho
        obtain ⟨t2, ht2, ho2⟩ := List.mem_flatMap.mp ho
        simp only at ho2
        by_cases hpos : 0 < get_reference_price prices t2
        · rw [if_pos hpos] at ho2
          have htid2 := (mem_pick_legs picker t2 _ _ strategies o ho2).1
          have hne : t2 ≠ t := fun he => hnt (he ▸ ht2)
          have hne2 : o.trade_id ≠ tid := by
            rw [htid2, ← htid]
            exact fun he => hne (mkTradeId_inj t2 t run_date he)
          simp [hne2]
        · rw [if_neg hpos] at ho2
          cases ho2
      rw [htail]
      simp only [Nat.add_zero]
      by_cases hpos : 0 < get_reference_price prices t
      · simp only [if_pos hpos]
        exact keyCount_pick_le_one picker t _ _ tid strat
      · simp only [if_neg hpos]
        simp [keyCount]
    · have hhead : keyCount (let p := get_reference_price prices t
          if 0 < p then pick_options_for_trade picker t p (mkTradeId t run_date)
          else []) tid strat = 0 := by
        simp only
        by_cases hpos : 0 < get_reference_price prices t
        · rw [if_pos hpos]
          exact keyCount_pick_legs_ne picker t _ _ tid strat strategies htid
        · rw [if_neg hpos]
          simp [keyCount]
      rw [hhead, Nat.zero_add]
      exact ih hrest

theorem keyCount_phase2_step_le_one (picker : String → ℚ → String → Option OptContract)
    (prices : String → Option ℚ) (opts : List OptRow) (row : StockRow)
    (acc : List OptRow) (hacc : ∀ tid strat, keyCount acc tid strat ≤ 1)
    (tid strat : String) :
    keyCount (phase2_step picker prices opts row acc) tid strat ≤ 1 := by
  rw [phase2_step]
  by_cases hcond : ((opts.filter (fun o => o.trade_id == row.trade_id)).isEmpty &&
      !(acc.any (fun o => o.trade_id == row.trade_id))) = true
  · rw [if_pos hcond]
    simp only
    by_cases hpos : (0 : ℚ) <
        (if (get_reference_price prices row.ticker == 0 && row.buy_price.isSome) = true
          then row.buy_price.getD 0 else get_reference_price prices row.ticker)
    · rw [if_pos hpos, keyCount_append]
      by_cases htid : row.trade_id = tid
      · have hzero : keyCount acc tid strat = 0 := by
          rw [keyCount, List.countP_eq_zero]
          intro o ho
          have hany := (Bool.and_eq_true _ _).mp hcond
          have hno : acc.any (fun o => o.trade_id == row.trade_id) = false := by
            have := hany.2
            rwa [Bool.not_eq_true'] at this
          have hrow := List.any_eq_false.mp hno o ho
          have hne2 : o.trade_id ≠ tid := by
            rw [← htid]
            simpa using hrow
          simp [hne2]
        rw [hzero, Nat.zero_add]
        exact keyCount_pick_le_one picker row.ticker _ _ tid strat
      · have h0 : keyCount (pick_options_for_trade picker row.ticker
            (if (get_reference_price prices row.ticker == 0 && row.buy_price.isSome) = true
              then row.buy_price.getD 0 else get_reference_price prices row.ticker)
            row.trade_id) tid strat = 0 :=
          keyCount_pick_legs_ne picker row.ticker _ row.trade_id tid strat strategies htid
        rw [h0, Nat.add_zero]
        exact hacc tid strat
    · rw [if_neg hpos]
      exact hacc tid strat
  · rw [if_neg hcond]
    exact hacc tid strat

theorem keyCount_phase2_le_one (picker : String → ℚ → String → Option OptContract)
    (prices : String → Option ℚ) (opts : List OptRow)
    (open_trades : List StockRow) (init : List OptRow)
    (hinit : ∀ tid strat, keyCount init tid strat ≤ 1) (tid strat : String) :
    keyCount (phase2_opts picker prices opts open_trades init) tid strat ≤ 1 := by
  induction open_trades generalizing init with
  | nil => exact hinit tid strat
  | cons row rest ih =>
    rw [phase2_opts, List.foldl_cons]
    exact ih (phase2_step picker prices opts row init)
      (keyCount_phase2_step_le_one picker prices opts row init hinit)

theorem keyCount_close_opts (ids : List String) (l : List OptRow) (tid strat : String) :
    keyCount (close_dropped_opts ids l) tid strat = keyCount l tid strat := by
  rw [keyCount, close_dropped_opts, List.countP_map, keyCount]
  apply countP_congr_eq
  intro o _
  simp only [Function.comp]
  by_cases hc : (ids.contains o.trade_id && o.status == Status.OPEN) = true
  · rw [if_pos hc]
  · rw [if_neg hc]

/-- C4 (amended): within a single run of `process_signals`, at most one new
OptionLeg is appended per `(trade_id, strategy)` — the new-buy loop
iterates distinct tickers whose trade ids `f"{t}_{run_date}"` are
pairwise distinct, the strategies are distinct, and the backfill loop
skips any trade_id already recorded or pending — and every appended
Position's trade_id is derived deterministically from its
`(ticker, signal_date = run_date)`. Uniqueness across runs is NOT
enforced: re-creating the same trade_id (same ticker and run_date, e.g.
in a second cohort, or a buy/drop/re-buy on one date) duplicates legs. -/
theorem process_signals_leg_unique (picker : String → ℚ → String → Option OptContract)
    (logs : Logs) (top10 : List String) (prices : String → Option ℚ)
    (cohort : String) (run_date : Nat) :
    (∀ tid strat,
      keyCount (process_signals picker logs top10 prices cohort run_date).opts tid strat ≤
        keyCount logs.opts tid strat + 1) ∧
    (∀ r ∈ (process_signals picker logs top10 prices cohort run_date).stocks.drop
        logs.stocks.length,
      r.trade_id = mkTradeId r.ticker run_date ∧ r.signal_date = some run_date) := by
  constructor
  · intro tid strat
    obtain ⟨ids, hopts⟩ : ∃ ids,
        (process_signals picker logs top10 prices cohort run_date).opts =
          close_dropped_opts ids (logs.opts ++ phase2_opts picker prices logs.opts
            (open_trades_of logs.stocks cohort)
            (phase1_opts picker prices run_date
              (new_buys_of logs.stocks top10 cohort))) := ⟨_, rfl⟩
    rw [hopts, keyCount_close_opts, keyCount_append]
    have hnew : keyCount (phase2_opts picker prices logs.opts
        (open_trades_of logs.stocks cohort)
        (phase1_opts picker prices run_date
          (new_buys_of logs.stocks top10 cohort))) tid strat ≤ 1 :=
      keyCount_phase2_le_one picker prices logs.opts _ _
        (fun tid2 strat2 => keyCount_phase1_le_one picker prices run_date _
          (new_buys_nodup logs.stocks top10 cohort) tid2 strat2) tid strat
    exact Nat.add_le_add (Nat.le_refl _) hnew
  · intro r hr
    have hstocks : (process_signals picker logs top10 prices cohort run_date).stocks =
        (logs.stocks.map (fun r2 =>
          if dropping_row cohort (current_tickers_of top10) r2 then
            { r2 with drop_date := some run_date, status := Status.CLOSED }
          else r2)) ++
        (((new_buys_of logs.stocks top10 cohort).map
            (fun t => new_stock_row cohort t run_date)).map (fun r2 =>
          if dropping_row cohort (current_tickers_of top10) r2 then
            { r2 with drop_date := some run_date, status := Status.CLOSED }
          else r2)) := by
      show close_dropped run_date cohort (current_tickers_of top10) _ = _
      rw [close_dropped, List.map_append]
    rw [hstocks] at hr
    rw [show logs.stocks.length = (logs.stocks.map (fun r2 =>
        if dropping_row cohort (current_tickers_of top10) r2 then
          { r2 with drop_date := some run_date, status := Status.CLOSED }
        else r2)).length from (List.length_map _ _).symm] at hr
    rw [List.drop_left] at hr
    obtain ⟨r1, hr1, rfl⟩ := List.mem_map.mp hr
    obtain ⟨t, _, rfl⟩ := List.mem_map.mp hr1
    by_cases hd : dropping_row cohort (current_tickers_of top10)
        (new_stock_row cohort t run_date) = true
    · rw [if_pos hd]
      exact ⟨rfl, rfl⟩
    · rw [if_neg hd]
      exact ⟨rfl, rfl⟩

/-- Witness for C4 (amended): the per-run bound applied to a concrete
empty-log run. -/
theorem process_signals_leg_unique_witness :
    keyCount (process_signals (fun _ _ _ => none) ⟨[], []⟩ ["X"] (fun _ => none)
      "c" 7).opts "q" "s" ≤ keyCount ([] : List OptRow) "q" "s" + 1 :=
  (process_signals_leg_unique (fun _ _ _ => none) ⟨[], []⟩ ["X"] (fun _ => none)
    "c" 7).1 "q" "s"

/-- Option picker oracle for the C4 counterexample: only the 100d_Call
strategy yields a contract. -/
def cexPicker : String → ℚ → String → Option OptContract := fun _ _ s =>
  if s == "100d_Call" then some ⟨"O:X1", 100, 10, "call"⟩ else none

/-- Snapshot prices for the C4 counterexample. -/
def cexPrices : String → Option ℚ := fun t => if t == "X" then some 10 else none

/-- C4 counterexample: the ticker X enters the top-5 of cohort sp500 and of
cohort sp400 on the same run_date 7. Both runs derive the same
`trade_id = "X_7"` (the cohort is not part of the trade_id) and each run
appends its own 100d_Call leg, so two OptionLeg records exist for the one
`(trade_id, strategy)` pair — "created at most once per (trade_id,
strategy) across all runs and cohorts" fails, and the leg is not owned by
exactly one Position. -/
theorem process_signals_leg_unique_cex :
    keyCount (process_signals cexPicker
      (process_signals cexPicker ⟨[], []⟩ ["X"] cexPrices "sp500" 7)
      ["X"] cexPrices "sp400" 7).opts (mkTradeId "X" 7) "100d_Call" = 2 := by
  decide

/-! ## Price resolution (tracker.py, `resolve_prices`) -/

/-- Market-data oracle for the resolution pass: `snap d t` is the
(high, low) pair of ticker `t`'s bar on day `d` as produced by
`_ensure_date_data` followed by `get_snapshots`, or `none` when no bar is
available (any exception in the source is swallowed by `except: pass` and
the day is skipped); `today` bounds the forward scan. -/
structure MarketOracle where
  snap : Nat → String → Option (ℚ × ℚ)
  today : Nat

/-- The scan loop of the `get_stock_price` helper over the remaining
day-offsets (`range(1, 6)` in the source): at `t = base + i`, hitting an
already-known `max_date` aborts the whole search (`return None`); a day on
or before `min_date` is skipped (`continue`); a future day aborts; a day
with both the ticker's and the benchmark's bar returns
`(t, high, spy_high)` for a buy and `(t, low, spy_low)` for a sell; a day
with missing data is skipped. -/
def gsp_go (o : MarketOracle) (ticker : String) (base : Nat) (is_buy : Bool)
    (min_date max_date : Option Nat) : List Nat → Option (Nat × ℚ × ℚ)
  | [] => none
  | i :: rest =>
    let t := base + i
    if max_date.any (fun m => decide (m ≤ t)) then none
    else if min_date.any (fun m => decide (t ≤ m)) then
      gsp_go o ticker base is_buy min_date max_date rest
    else if o.today < t then none
    else
      match o.snap t ticker, o.snap t "VOO" with
      | some rowv, some spyv =>
        some (t, (if is_buy then rowv.1 else rowv.2), (if is_buy then spyv.1 else spyv.2))
      | _, _ => gsp_go o ticker base is_buy min_date max_date rest

/-- `get_stock_price(ticker, d_str, col, min_date, max_date)`: scan forward
from the day after `base` for up to five days (`is_buy` selects the
`buy_price`/high column treatment versus the sell/low one). -/
def get_stock_price (o : MarketOracle) (ticker : String) (base : Nat)
    (is_buy : Bool) (min_date max_date : Option Nat) : Option (Nat × ℚ × ℚ) :=
  gsp_go o ticker base is_buy min_date max_date [1, 2, 3, 4, 5]

/-- Buy resolution for one row of `needs_buy` (`buy_price` missing,
`signal_date` known): scan forward from the signal date with the known
`drop_date` as `max_date`; fill the three buy fields only when a price was
found and is truthy (a 0.0 price is falsy in the source's `if v:`). -/
def resolve_buy_row (o : MarketOracle) (r : StockRow) : StockRow :=
  match r.buy_price, r.signal_date with
  | none, some sd =>
    (match get_stock_price o r.ticker sd true none r.drop_date with
     | some (d, v, s) =>
       if v ≠ 0 then
         { r with buy_date := some d, buy_price := some v, spy_buy_price := some s }
       else r
     | none => r)
  | _, _ => r

/-- Sell resolution for one row of `needs_sell` (`sell_price` missing,
`drop_date` known): scan forward from the drop date with the row's current
(possibly just-resolved) `buy_date` as `min_date`. -/
def resolve_sell_row (o : MarketOracle) (r : StockRow) : StockRow :=
  match r.sell_price, r.drop_date with
  | none, some dd =>
    (match get_stock_price o r.ticker dd false r.buy_date none with
     | some (d, v, s) =>
       if v ≠ 0 then
         { r with sell_date := some d, sell_price := some v, spy_sell_price := some s }
       else r
     | none => r)
  | _, _ => r

/-- Phase A of `resolve_prices`: resolve buys over all rows, then sells.
The source computes `needs_sell` on the frame loaded at entry but re-reads
each row from the updated frame before resolving its sell; since buy
resolution never touches `sell_price` or `drop_date`, the `needs_sell`
membership test agrees on the updated rows and the pass is the per-row
composition below. -/
def resolve_stocks (o : MarketOracle) (stocks : List StockRow) : List StockRow :=
  (stocks.map (resolve_buy_row o)).map (resolve_sell_row o)

/-- One row of `df_opt.merge(df_stock[["trade_id", "buy_date",
"sell_date"]], on="trade_id", how="left")`. -/
structure MergedRow where
  opt : OptRow
  buy_date : Option Nat
  sell_date : Option Nat

/-- The left merge itself: an option row with no matching stock row keeps
NaN dates; one merged row per matching stock row otherwise. -/
def merged_rows (stocks : List StockRow) (opts : List OptRow) : List MergedRow :=
  opts.flatMap (fun o2 =>
    match stocks.filter (fun r => r.trade_id == o2.trade_id) with
    | [] => [⟨o2, none, none⟩]
    | r :: rest => (r :: rest).map (fun r2 => ⟨o2, r2.buy_date, r2.sell_date⟩))

/-- One iteration of the option-entry loop: fetch the contract's daily
close on the stock's buy date (`optPrice` oracle; `None` or a falsy 0.0
price leaves the log untouched) and write `entry_date`/`entry_price`
through the `(trade_id, strategy)` mask. -/
def mask_update_entry (m : MergedRow) (b : Nat) (p : ℚ) (o2 : OptRow) : OptRow :=
  if o2.trade_id == m.opt.trade_id && o2.strategy == m.opt.strategy then
    { o2 with entry_date := some b, entry_price := some p }
  else o2

def entry_step (optPrice : String → Nat → Option ℚ) (m : MergedRow)
    (acc : List OptRow) : List OptRow :=
  match m.buy_date with
  | none => acc
  | some b =>
    match optPrice m.opt.option_symbol b with
    | none => acc
    | some p =>
      if p ≠ 0 then acc.map (mask_update_entry m b p) else acc

/-- One iteration of the option-exit loop, writing `exit_date`/`exit_price`
on the stock's sell date through the `(trade_id, strategy)` mask. -/
def mask_update_exit (m : MergedRow) (b : Nat) (p : ℚ) (o2 : OptRow) : OptRow :=
  if o2.trade_id == m.opt.trade_id && o2.strategy == m.opt.strategy then
    { o2 with exit_date := some b, exit_price := some p }
  else o2

def exit_step (optPrice : String → Nat → Option ℚ) (m : MergedRow)
    (acc : List OptRow) : List OptRow :=
  match m.sell_date with
  | none => acc
  | some b =>
    match optPrice m.opt.option_symbol b with
    | none => acc
    | some p =>
      if p ≠ 0 then acc.map (mask_update_exit m b p) else acc

/-- The `needs_entry` loop: merged rows with `entry_price` missing and a
known buy date. -/
def resolve_entries (optPrice : String → Nat → Option ℚ) (merged : List MergedRow)
    (opts : List OptRow) : List OptRow :=
  (merged.filter (fun m => m.opt.entry_price.isNone && m.buy_date.isSome)).foldl
    (fun acc m => entry_step optPrice m acc) opts

/-- The `needs_exit` loop (computed from the same merged frame). -/
def resolve_exits (optPrice : String → Nat → Option ℚ) (merged : List MergedRow)
    (opts : List OptRow) : List OptRow :=
  (merged.filter (fun m => m.opt.exit_price.isNone && m.sell_date.isSome)).foldl
    (fun acc m => exit_step optPrice m acc) opts

/-- Phase B of `resolve_prices`: both loops over the merge of the option
log with the (already stock-resolved and saved) stock log. -/
def resolve_options (optPrice : String → Nat → Option ℚ)
    (stocks : List StockRow) (opts : List OptRow) : List OptRow :=
  resolve_exits optPrice (merged_rows stocks opts)
    (resolve_entries optPrice (merged_rows stocks opts) opts)

/-- `TradeTracker.resolve_prices`: stock resolution first (saved), then
option resolution against the updated stock log. -/
def resolve_prices (o : MarketOracle) (optPrice : String → Nat → Option ℚ)
    (stocks : List StockRow) (opts : List OptRow) : Logs :=
  ⟨resolve_stocks o stocks,
    resolve_options optPrice (resolve_stocks o stocks) opts⟩

/-! ### Forward-scan lemmas -/

theorem gsp_go_spec (o : MarketOracle) (ticker : String) (base : Nat)
    (is_buy : Bool) (min_date max_date : Option Nat) (L : List Nat)
    (hL : ∀ i ∈ L, 1 ≤ i ∧ i ≤ 5) (d : Nat) (v s : ℚ)
    (h : gsp_go o ticker base is_buy min_date max_date L = some (d, v, s)) :
    base < d ∧ d ≤ base + 5 ∧ d ≤ o.today ∧
      (∀ m, max_date = some m → d < m) ∧
      (∀ m, min_date = some m → m < d) := by
  induction L with
  | nil => cases h
  | cons i rest ih =>
    rw [gsp_go] at h
    by_cases hmax : (max_date.any (fun m => decide (m ≤ base + i))) = true
    · rw [if_pos hmax] at h
      cases h
    · rw [if_neg hmax] at h
      by_cases hmin : (min_date.any (fun m => decide (base + i ≤ m))) = true
      · rw [if_pos hmin] at h
        exact ih (fun j hj => hL j (by simp [hj])) h
      · rw [if_neg hmin] at h
        by_cases htoday : o.today < base + i
        · rw [if_pos htoday] at h
          cases h
        · rw [if_neg htoday] at h
          cases hrow : o.snap (base + i) ticker with
          | none =>
            rw [hrow] at h
            exact ih (fun j hj => hL j (by simp [hj])) h
          | some rowv =>
            cases hspy : o.snap (base + i) "VOO" with
            | none =>
              rw [hrow, hspy] at h
              exact ih (fun j hj => hL j (by simp [hj])) h
            | some spyv =>
              rw [hrow, hspy, Option.some.injEq] at h
              obtain ⟨rfl, -, -⟩ := Prod.mk.injEq .. ▸ h
              obtain ⟨h1, h5⟩ := hL i (by simp)
              refine ⟨by omega, by omega, by omega, ?_, ?_⟩
              · intro m hm
                rw [hm] at hmax
                simp only [Option.any_some, decide_eq_true_eq] at hmax
                omega
              · intro m hm
                rw [hm] at hmin
                simp only [Option.any_some, decide_eq_true_eq] at hmin
                omega

theorem get_stock_price_spec (o : MarketOracle) (ticker : String) (base : Nat)
    (is_buy : Bool) (min_date max_date : Option Nat) (d : Nat) (v s : ℚ)
    (h : get_stock_price o ticker base is_buy min_date max_date = some (d, v, s)) :
    base < d ∧ d ≤ base + 5 ∧ d ≤ o.today ∧
      (∀ m, max_date = some m → d < m) ∧
      (∀ m, min_date = some m → m < d) :=
  gsp_go_spec o ticker base is_buy min_date max_date [1, 2, 3, 4, 5]
    (by decide) d v s h

/-! ### Row-level stock resolution lemmas -/

theorem resolve_buy_row_frame (o : MarketOracle) (r : StockRow) :
    (resolve_buy_row o r).trade_id = r.trade_id ∧
    (resolve_buy_row o r).ticker = r.ticker ∧
    (resolve_buy_row o r).signal_date = r.signal_date ∧
    (resolve_buy_row o r).drop_date = r.drop_date ∧
    (resolve_buy_row o r).sell_date = r.sell_date ∧
    (resolve_buy_row o r).sell_price = r.sell_price ∧
    (resolve_buy_row o r).spy_sell_price = r.spy_sell_price := by
  unfold resolve_buy_row
  repeat' split
  all_goals simp

theorem resolve_sell_row_frame (o : MarketOracle) (r : StockRow) :
    (resolve_sell_row o r).trade_id = r.trade_id ∧
    (resolve_sell_row o r).ticker = r.ticker ∧
    (resolve_sell_row o r).signal_date = r.signal_date ∧
    (resolve_sell_row o r).drop_date = r.drop_date ∧
    (resolve_sell_row o r).buy_date = r.buy_date ∧
    (resolve_sell_row o r).buy_price = r.buy_price ∧
    (resolve_sell_row o r).spy_buy_price = r.spy_buy_price := by
  unfold resolve_sell_row
  repeat' split
  all_goals simp

theorem resolve_buy_row_of_some (o : MarketOracle) (r : StockRow)
    (h : r.buy_price.isSome = true) : resolve_buy_row o r = r := by
  cases hb : r.buy_price with
  | none => rw [hb] at h; cases h
  | some p =>
    unfold resolve_buy_row
    rw [hb]

theorem resolve_sell_row_of_some (o : MarketOracle) (r : StockRow)
    (h : r.sell_price.isSome = true) : resolve_sell_row o r = r := by
  cases hb : r.sell_price with
  | none => rw [hb] at h; cases h
  | some p =>
    unfold resolve_sell_row
    rw [hb]

theorem resolve_buy_row_fill (o : MarketOracle) (r : StockRow)
    (hfill : (resolve_buy_row o r).buy_price ≠ r.buy_price) :
    ∃ sd d v s, r.signal_date = some sd ∧
      get_stock_price o r.ticker sd true none r.drop_date = some (d, v, s) ∧
      v ≠ 0 ∧
      resolve_buy_row o r =
        { r with buy_date := some d, buy_price := some v, spy_buy_price := some s } := by
  cases hb : r.buy_price with
  | some p =>
    exact absurd (congrArg StockRow.buy_price
      (resolve_buy_row_of_some o r (by simp [hb]))) hfill
  | none =>
    rcases r.signal_date.eq_none_or_eq_some with hsd | ⟨sd, hsd⟩
    · exfalso
      apply hfill
      have heq : resolve_buy_row o r = r := by
        unfold resolve_buy_row
        rw [hb, hsd]
      rw [heq]
    · have hred : resolve_buy_row o r =
          (match get_stock_price o r.ticker sd true none r.drop_date with
           | some (d, v, s) =>
             if v ≠ 0 then
               { r with buy_date := some d, buy_price := some v, spy_buy_price := some s }
             else r
           | none => r) := by
        unfold resolve_buy_row
        rw [hb, hsd]
      cases hg : get_stock_price o r.ticker sd true none r.drop_date with
      | none =>
        exfalso
        apply hfill
        rw [hred, hg]
      | some dvs =>
        obtain ⟨d, v, s⟩ := dvs
        by_cases hv : v ≠ 0
        · refine ⟨sd, d, v, s, hsd, hg, hv, ?_⟩
          rw [hred, hg]
          simp [hv]
        · exfalso
          apply hfill
          rw [hred, hg]
          simp [hv]

theorem resolve_sell_row_fill (o : MarketOracle) (r : StockRow)
    (hfill : (resolve_sell_row o r).sell_price ≠ r.sell_price) :
    ∃ dd d v s, r.drop_date = some dd ∧
      get_stock_price o r.ticker dd false r.buy_date none = some (d, v, s) ∧
      v ≠ 0 ∧
      resolve_sell_row o r =
        { r with sell_date := some d, sell_price := some v, spy_sell_price := some s } := by
  cases hb : r.sell_price with
  | some p =>
    exact absurd (congrArg StockRow.sell_price
      (resolve_sell_row_of_some o r (by simp [hb]))) hfill
  | none =>
    rcases r.drop_date.eq_none_or_eq_some with hdd | ⟨dd, hdd⟩
    · exfalso
      apply hfill
      have heq : resolve_sell_row o r = r := by
        unfold resolve_sell_row
        rw [hb, hdd]
      rw [heq]
    · have hred : resolve_sell_row o r =
          (match get_stock_price o r.ticker dd false r.buy_date none with
           | some (d, v, s) =>
             if v ≠ 0 then
               { r with sell_date := some d, sell_price := some v, spy_sell_price := some s }
             else r
           | none => r) := by
        unfold resolve_sell_row
        rw [hb, hdd]
      cases hg : get_stock_price o r.ticker dd false r.buy_date none with
      | none =>
        exfalso
        apply hfill
        rw [hred, hg]
      | some dvs =>
        obtain ⟨d, v, s⟩ := dvs
        by_cases hv : v ≠ 0
        · refine ⟨dd, d, v, s, hdd, hg, hv, ?_⟩
          rw [hred, hg]
          simp [hv]
        · exfalso
          apply hfill
          rw [hred, hg]
          simp [hv]

theorem resolve_stocks_getElem (o : MarketOracle) (stocks : List StockRow)
    (i : Nat) (r : StockRow) (hr : stocks[i]? = some r) :
    (resolve_stocks o stocks)[i]? = some (resolve_sell_row o (resolve_buy_row o r)) := by
  rw [resolve_stocks, List.getElem?_map, List.getElem?_map, hr]
  rfl

/-! ### Claim C8 — resolution ordering -/

/-- C8: during every run of `resolve_prices` and for every position, the
buy-date forward search never selects a day on or after an already-known
`drop_date` (a row whose buy got filled this run while its drop date was
known has `buy_date < drop_date`; otherwise the buy stays unfilled), and
the sell-date forward search never selects a day on or before the resolved
`buy_date` (a row whose sell got filled has `sell_date > buy_date`
whenever a buy date is recorded). -/
theorem resolve_prices_search_bounds (o : MarketOracle)
    (optPrice : String → Nat → Option ℚ) (stocks : List StockRow)
    (opts : List OptRow) (i : Nat) (r r2 : StockRow)
    (hr : stocks[i]? = some r)
    (hr2 : (resolve_prices o optPrice stocks opts).stocks[i]? = some r2) :
    (r.buy_price = none → r2.buy_price.isSome →
      ∀ dd, r.drop_date = some dd → ∃ bd, r2.buy_date = some bd ∧ bd < dd) ∧
    (r.sell_price = none → r2.sell_price.isSome →
      ∀ bd, r2.buy_date = some bd → ∃ sd2, r2.sell_date = some sd2 ∧ bd < sd2) := by
  have hr2' : r2 = resolve_sell_row o (resolve_buy_row o r) := by
    have h1 : (resolve_prices o optPrice stocks opts).stocks = resolve_stocks o stocks :=
      rfl
    rw [h1, resolve_stocks_getElem o stocks i r hr, Option.some.injEq] at hr2
    exact hr2.symm
  constructor
  · intro hb hb2 dd hdd
    have hbuy : r2.buy_price = (resolve_buy_row o r).buy_price :=
      hr2' ▸ (resolve_sell_row_frame o (resolve_buy_row o r)).2.2.2.2.2.1
    have hbd : r2.buy_date = (resolve_buy_row o r).buy_date :=
      hr2' ▸ (resolve_sell_row_frame o (resolve_buy_row o r)).2.2.2.2.1
    have hfill : (resolve_buy_row o r).buy_price ≠ r.buy_price := by
      rw [← hbuy, hb]
      intro hcontra
      rw [hcontra] at hb2
      cases hb2
    obtain ⟨sd, d, v, s, hsd, hg, hv, heq⟩ := resolve_buy_row_fill o r hfill
    have hspec := get_stock_price_spec o r.ticker sd true none r.drop_date d v s hg
    refine ⟨d, ?_, hspec.2.2.2.1 dd hdd⟩
    rw [hbd, heq]
  · intro hs hs2 bd hbd
    have hsell0 : (resolve_buy_row o r).sell_price = r.sell_price :=
      (resolve_buy_row_frame o r).2.2.2.2.2.1
    have hfill : (resolve_sell_row o (resolve_buy_row o r)).sell_price ≠
        (resolve_buy_row o r).sell_price := by
      rw [← hr2', hsell0, hs]
      intro hcontra
      rw [hcontra] at hs2
      cases hs2
    obtain ⟨dd, d, v, s, hdd, hg, hv, heq⟩ :=
      resolve_sell_row_fill o (resolve_buy_row o r) hfill
    have hspec := get_stock_price_spec o (resolve_buy_row o r).ticker dd false
      (resolve_buy_row o r).buy_date none d v s hg
    have hmin : (resolve_buy_row o r).buy_date = some bd := by
      rw [← hbd, hr2', heq]
    refine ⟨d, ?_, hspec.2.2.2.2 bd hmin⟩
    rw [hr2', heq]

/-! ### Claim C10 — next-day execution -/

/-- C10: whenever `resolve_prices` fills a position's sell fields, the
recorded `sell_date` is strictly later than the position's `drop_date`
(the scan starts at `drop_date + 1`), and symmetrically any buy filled
this run has `buy_date` strictly later than `signal_date`. -/
theorem resolve_prices_strict_after (o : MarketOracle)
    (optPrice : String → Nat → Option ℚ) (stocks : List StockRow)
    (opts : List OptRow) (i : Nat) (r r2 : StockRow)
    (hr : stocks[i]? = some r)
    (hr2 : (resolve_prices o optPrice stocks opts).stocks[i]? = some r2) :
    (r.buy_price = none → r2.buy_price.isSome →
      ∀ sd0, r.signal_date = some sd0 →
        ∃ bd, r2.buy_date = some bd ∧ sd0 < bd ∧ bd ≤ sd0 + 5) ∧
    (r.sell_price = none → r2.sell_price.isSome →
      ∀ dd, r.drop_date = some dd →
        ∃ sd2, r2.sell_date = some sd2 ∧ dd < sd2 ∧ sd2 ≤ dd + 5) := by
  have hr2' : r2 = resolve_sell_row o (resolve_buy_row o r) := by
    have h1 : (resolve_prices o optPrice stocks opts).stocks = resolve_stocks o stocks :=
      rfl
    rw [h1, resolve_stocks_getElem o stocks i r hr, Option.some.injEq] at hr2
    exact hr2.symm
  constructor
  · intro hb hb2 sd0 hsig
    have hbuy : r2.buy_price = (resolve_buy_row o r).buy_price :=
      hr2' ▸ (resolve_sell_row_frame o (resolve_buy_row o r)).2.2.2.2.2.1
    have hbd : r2.buy_date = (resolve_buy_row o r).buy_date :=
      hr2' ▸ (resolve_sell_row_frame o (resolve_buy_row o r)).2.2.2.2.1
    have hfill : (resolve_buy_row o r).buy_price ≠ r.buy_price := by
      rw [← hbuy, hb]
      intro hcontra
      rw [hcontra] at hb2
      cases hb2
    obtain ⟨sd, d, v, s, hsd, hg, hv, heq⟩ := resolve_buy_row_fill o r hfill
    have hspec := get_stock_price_spec o r.ticker sd true none r.drop_date d v s hg
    have hsd0 : sd = sd0 := by
      rw [hsd] at hsig
      exact Option.some.inj hsig
    refine ⟨d, ?_, by omega, by omega⟩
    rw [hbd, heq]
  · intro hs hs2 dd0 hdrop
    have hsell0 : (resolve_buy_row o r).sell_price = r.sell_price :=
      (resolve_buy_row_frame o r).2.2.2.2.2.1
    have hfill : (resolve_sell_row o (resolve_buy_row o r)).sell_price ≠
        (resolve_buy_row o r).sell_price := by
      rw [← hr2', hsell0, hs]
      intro hcontra
      rw [hcontra] at hs2
      cases hs2
    obtain ⟨dd, d, v, s, hdd, hg, hv, heq⟩ :=
      resolve_sell_row_fill o (resolve_buy_row o r) hfill
    have hspec := get_stock_price_spec o (resolve_buy_row o r).ticker dd false
      (resolve_buy_row o r).buy_date none d v s hg
    have hdd0 : dd = dd0 := by
      have hdrop1 : (resolve_buy_row o r).drop_date = r.drop_date :=
        (resolve_buy_row_frame o r).2.2.2.1
      rw [hdrop1, hdrop] at hdd
      exact (Option.some.inj hdd).symm
    refine ⟨d, ?_, by omega, by omega⟩
    rw [hr2', heq]

/-! ### Claim C9 — resolution never overwrites filled fields -/

/-- Key uniqueness of the option log: no two rows share
`(trade_id, strategy)`. -/
def OptKeysUnique (opts : List OptRow) : Prop :=
  opts.Pairwise (fun a b => a.trade_id ≠ b.trade_id ∨ a.strategy ≠ b.strategy)

theorem optKeys_symm : Symmetric
    (fun (a b : OptRow) => a.trade_id ≠ b.trade_id ∨ a.strategy ≠ b.strategy) := by
  intro a b hab
  rcases hab with h | h
  · exact Or.inl (Ne.symm h)
  · exact Or.inr (Ne.symm h)

theorem getElem?_mem {α : Type} (l : List α) (i : Nat) (a : α) (h : l[i]? = some a) :
    a ∈ l := by
  obtain ⟨hlt, heq⟩ := List.getElem?_eq_some_iff.mp h
  rw [← heq]
  exact List.getElem_mem hlt

theorem mem_merged_rows (stocks : List StockRow) (opts : List OptRow) (m : MergedRow)
    (hm : m ∈ merged_rows stocks opts) : m.opt ∈ opts := by
  obtain ⟨o2, ho2, hmem⟩ := List.mem_flatMap.mp hm
  cases hf : stocks.filter (fun r => r.trade_id == o2.trade_id) with
  | nil =>
    rw [hf] at hmem
    simp only [List.mem_singleton] at hmem
    rw [hmem]
    exact ho2
  | cons r rest =>
    rw [hf] at hmem
    obtain ⟨r2, _, hr2⟩ := List.mem_map.mp hmem
    rw [← hr2]
    exact ho2

theorem mask_update_entry_frame (m : MergedRow) (b : Nat) (p : ℚ) (ai : OptRow) :
    (mask_update_entry m b p ai).trade_id = ai.trade_id ∧
    (mask_update_entry m b p ai).strategy = ai.strategy ∧
    (mask_update_entry m b p ai).exit_date = ai.exit_date ∧
    (mask_update_entry m b p ai).exit_price = ai.exit_price ∧
    (¬(ai.trade_id = m.opt.trade_id ∧ ai.strategy = m.opt.strategy) →
      mask_update_entry m b p ai = ai) := by
  unfold mask_update_entry
  by_cases hmask : (ai.trade_id == m.opt.trade_id && ai.strategy == m.opt.strategy) = true
  · rw [if_pos hmask]
    refine ⟨rfl, rfl, rfl, rfl, ?_⟩
    intro hne
    exfalso
    apply hne
    simpa using hmask
  · rw [if_neg hmask]
    exact ⟨rfl, rfl, rfl, rfl, fun _ => rfl⟩

theorem mask_update_exit_frame (m : MergedRow) (b : Nat) (p : ℚ) (ai : OptRow) :
    (mask_update_exit m b p ai).trade_id = ai.trade_id ∧
    (mask_update_exit m b p ai).strategy = ai.strategy ∧
    (mask_update_exit m b p ai).entry_date = ai.entry_date ∧
    (mask_update_exit m b p ai).entry_price = ai.entry_price ∧
    (¬(ai.trade_id = m.opt.trade_id ∧ ai.strategy = m.opt.strategy) →
      mask_update_exit m b p ai = ai) := by
  unfold mask_update_exit
  by_cases hmask : (ai.trade_id == m.opt.trade_id && ai.strategy == m.opt.strategy) = true
  · rw [if_pos hmask]
    refine ⟨rfl, rfl, rfl, rfl, ?_⟩
    intro hne
    exfalso
    apply hne
    simpa using hmask
  · rw [if_neg hmask]
    exact ⟨rfl, rfl, rfl, rfl, fun _ => rfl⟩

theorem entry_step_frame (optPrice : String → Nat → Option ℚ) (m : MergedRow)
    (acc : List OptRow) :
    (entry_step optPrice m acc).length = acc.length ∧
    ∀ (i : Nat) (ai : OptRow), acc[i]? = some ai →
      ∃ ri, (entry_step optPrice m acc)[i]? = some ri ∧
        ri.trade_id = ai.trade_id ∧ ri.strategy = ai.strategy ∧
        ri.exit_date = ai.exit_date ∧ ri.exit_price = ai.exit_price ∧
        (¬(ai.trade_id = m.opt.trade_id ∧ ai.strategy = m.opt.strategy) → ri = ai) := by
  unfold entry_step
  split
  · exact ⟨rfl, fun i ai h => ⟨ai, h, rfl, rfl, rfl, rfl, fun _ => rfl⟩⟩
  · split
    · exact ⟨rfl, fun i ai h => ⟨ai, h, rfl, rfl, rfl, rfl, fun _ => rfl⟩⟩
    · split
      · refine ⟨List.length_map _ _, ?_⟩
        intro i ai h
        exact ⟨_, by rw [List.getElem?_map, h]; rfl,
          (mask_update_entry_frame _ _ _ ai).1,
          (mask_update_entry_frame _ _ _ ai).2.1,
          (mask_update_entry_frame _ _ _ ai).2.2.1,
          (mask_update_entry_frame _ _ _ ai).2.2.2.1,
          (mask_update_entry_frame _ _ _ ai).2.2.2.2⟩
      · exact ⟨rfl, fun i ai h => ⟨ai, h, rfl, rfl, rfl, rfl, fun _ => rfl⟩⟩

theorem exit_step_frame (optPrice : String → Nat → Option ℚ) (m : MergedRow)
    (acc : List OptRow) :
    (exit_step optPrice m acc).length = acc.length ∧
    ∀ (i : Nat) (ai : OptRow), acc[i]? = some ai →
      ∃ ri, (exit_step optPrice m acc)[i]? = some ri ∧
        ri.trade_id = ai.trade_id ∧ ri.strategy = ai.strategy ∧
        ri.entry_date = ai.entry_date ∧ ri.entry_price = ai.entry_price ∧
        (¬(ai.trade_id = m.opt.trade_id ∧ ai.strategy = m.opt.strategy) → ri = ai) := by
  unfold exit_step
  split
  · exact ⟨rfl, fun i ai h => ⟨ai, h, rfl, rfl, rfl, rfl, fun _ => rfl⟩⟩
  · split
    · exact ⟨rfl, fun i ai h => ⟨ai, h, rfl, rfl, rfl, rfl, fun _ => rfl⟩⟩
    · split
      · refine ⟨List.length_map _ _, ?_⟩
        intro i ai h
        exact ⟨_, by rw [List.getElem?_map, h]; rfl,
          (mask_update_exit_frame _ _ _ ai).1,
          (mask_update_exit_frame _ _ _ ai).2.1,
          (mask_update_exit_frame _ _ _ ai).2.2.1,
          (mask_update_exit_frame _ _ _ ai).2.2.2.1,
          (mask_update_exit_frame _ _ _ ai).2.2.2.2⟩
      · exact ⟨rfl, fun i ai h => ⟨ai, h, rfl, rfl, rfl, rfl, fun _ => rfl⟩⟩

theorem entries_fold_frame (optPrice : String → Nat → Option ℚ) (orig : List OptRow)
    (hU : OptKeysUnique orig) :
    ∀ ms : List MergedRow, (∀ m ∈ ms, m.opt ∈ orig ∧ m.opt.entry_price = none) →
    ∀ acc : List OptRow, acc.length = orig.length →
    (∀ (i : Nat) (oi ai : OptRow), orig[i]? = some oi → acc[i]? = some ai →
      ai.trade_id = oi.trade_id ∧ ai.strategy = oi.strategy) →
    (ms.foldl (fun acc2 m => entry_step optPrice m acc2) acc).length = orig.length ∧
    ∀ (i : Nat) (oi ai ri : OptRow), orig[i]? = some oi → acc[i]? = some ai →
      (ms.foldl (fun acc2 m => entry_step optPrice m acc2) acc)[i]? = some ri →
      ri.trade_id = ai.trade_id ∧ ri.strategy = ai.strategy ∧
      ri.exit_date = ai.exit_date ∧ ri.exit_price = ai.exit_price ∧
      (oi.entry_price.isSome = true →
        ri.entry_date = ai.entry_date ∧ ri.entry_price = ai.entry_price) := by
  intro ms
  induction ms with
  | nil =>
    intro _ acc hlen hkeys
    refine ⟨hlen, ?_⟩
    intro i oi ai ri h1 h2 h3
    rw [List.foldl_nil, h2] at h3
    have := Option.some.inj h3
    rw [← this]
    exact ⟨rfl, rfl, rfl, rfl, fun _ => ⟨rfl, rfl⟩⟩
  | cons m ms ih =>
    intro hms acc hlen hkeys
    have hm := hms m (by simp)
    have hms2 : ∀ m2 ∈ ms, m2.opt ∈ orig ∧ m2.opt.entry_price = none :=
      fun m2 hm2 => hms m2 (by simp [hm2])
    obtain ⟨hslen, hstep⟩ := entry_step_frame optPrice m acc
    have hlen1 : (entry_step optPrice m acc).length = orig.length := by rw [hslen, hlen]
    have hkeys1 : ∀ (i : Nat) (oi ai1 : OptRow), orig[i]? = some oi →
        (entry_step optPrice m acc)[i]? = some ai1 →
        ai1.trade_id = oi.trade_id ∧ ai1.strategy = oi.strategy := by
      intro i oi ai1 h1 h2
      have hlt : i < acc.length := by
        rw [hlen]
        exact (List.getElem?_eq_some_iff.mp h1).1
      obtain ⟨ai, hai⟩ : ∃ ai, acc[i]? = some ai := ⟨acc[i], List.getElem?_eq_getElem hlt⟩
      obtain ⟨ri, hri, hk1, hk2, -, -, -⟩ := hstep i ai hai
      rw [hri] at h2
      have hri2 := Option.some.inj h2
      obtain ⟨hko1, hko2⟩ := hkeys i oi ai h1 hai
      rw [← hri2]
      exact ⟨hk1.trans hko1, hk2.trans hko2⟩
    rw [List.foldl_cons]
    obtain ⟨hrlen, hrest⟩ := ih hms2 (entry_step optPrice m acc) hlen1 hkeys1
    refine ⟨hrlen, ?_⟩
    intro i oi ai ri h1 h2 h3
    obtain ⟨ri1, hri1, hs1, hs2, hs3, hs4, hs5⟩ := hstep i ai h2
    have hrest2 := hrest i oi ri1 ri h1 hri1 h3
    refine ⟨hrest2.1.trans hs1, hrest2.2.1.trans hs2, hrest2.2.2.1.trans hs3,
      hrest2.2.2.2.1.trans hs4, ?_⟩
    intro hsome
    have hkeq := hkeys i oi ai h1 h2
    have hne : ¬(ai.trade_id = m.opt.trade_id ∧ ai.strategy = m.opt.strategy) := by
      rintro ⟨hk1, hk2⟩
      have hoi_mem : oi ∈ orig := getElem?_mem orig i oi h1
      have hne2 : m.opt ≠ oi := by
        intro he
        rw [he] at hm
        rw [hm.2] at hsome
        cases hsome
      have hR := hU.forall optKeys_symm hm.1 hoi_mem hne2
      rcases hR with hR | hR
      · exact hR (by rw [← hk1, hkeq.1])
      · exact hR (by rw [← hk2, hkeq.2])
    have hri1eq : ri1 = ai := hs5 hne
    have hcond := hrest2.2.2.2.2 hsome
    rw [hri1eq] at hcond
    exact hcond

theorem exits_fold_frame (optPrice : String → Nat → Option ℚ) (orig : List OptRow)
    (hU : OptKeysUnique orig) :
    ∀ ms : List MergedRow, (∀ m ∈ ms, m.opt ∈ orig ∧ m.opt.exit_price = none) →
    ∀ acc : List OptRow, acc.length = orig.length →
    (∀ (i : Nat) (oi ai : OptRow), orig[i]? = some oi → acc[i]? = some ai →
      ai.trade_id = oi.trade_id ∧ ai.strategy = oi.strategy) →
    (ms.foldl (fun acc2 m => exit_step optPrice m acc2) acc).length = orig.length ∧
    ∀ (i : Nat) (oi ai ri : OptRow), orig[i]? = some oi → acc[i]? = some ai →
      (ms.foldl (fun acc2 m => exit_step optPrice m acc2) acc)[i]? = some ri →
      ri.trade_id = ai.trade_id ∧ ri.strategy = ai.strategy ∧
      ri.entry_date = ai.entry_date ∧ ri.entry_price = ai.entry_price ∧
      (oi.exit_price.isSome = true →
        ri.exit_date = ai.exit_date ∧ ri.exit_price = ai.exit_price) := by
  intro ms
  induction ms with
  | nil =>
    intro _ acc hlen hkeys
    refine ⟨hlen, ?_⟩
    intro i oi ai ri h1 h2 h3
    rw [List.foldl_nil, h2] at h3
    have := Option.some.inj h3
    rw [← this]
    exact ⟨rfl, rfl, rfl, rfl, fun _ => ⟨rfl, rfl⟩⟩
  | cons m ms ih =>
    intro hms acc hlen hkeys
    have hm := hms m (by simp)
    have hms2 : ∀ m2 ∈ ms, m2.opt ∈ orig ∧ m2.opt.exit_price = none :=
      fun m2 hm2 => hms m2 (by simp [hm2])
    obtain ⟨hslen, hstep⟩ := exit_step_frame optPrice m acc
    have hlen1 : (exit_step optPrice m acc).length = orig.length := by rw [hslen, hlen]
    have hkeys1 : ∀ (i : Nat) (oi ai1 : OptRow), orig[i]? = some oi →
        (exit_step optPrice m acc)[i]? = some ai1 →
        ai1.trade_id = oi.trade_id ∧ ai1.strategy = oi.strategy := by
      intro i oi ai1 h1 h2
      have hlt : i < acc.length := by
        rw [hlen]
        exact (List.getElem?_eq_some_iff.mp h1).1
      obtain ⟨ai, hai⟩ : ∃ ai, acc[i]? = some ai := ⟨acc[i], List.getElem?_eq_getElem hlt⟩
      obtain ⟨ri, hri, hk1, hk2, -, -, -⟩ := hstep i ai hai
      rw [hri] at h2
      have hri2 := Option.some.inj h2
      obtain ⟨hko1, hko2⟩ := hkeys i oi ai h1 hai
      rw [← hri2]
      exact ⟨hk1.trans hko1, hk2.trans hko2⟩
    rw [List.foldl_cons]
    obtain ⟨hrlen, hrest⟩ := ih hms2 (exit_step optPrice m acc) hlen1 hkeys1
    refine ⟨hrlen, ?_⟩
    intro i oi ai ri h1 h2 h3
    obtain ⟨ri1, hri1, hs1, hs2, hs3, hs4, hs5⟩ := hstep i ai h2
    have hrest2 := hrest i oi ri1 ri h1 hri1 h3
    refine ⟨hrest2.1.trans hs1, hrest2.2.1.trans hs2, hrest2.2.2.1.trans hs3,
      hrest2.2.2.2.1.trans hs4, ?_⟩
    intro hsome
    have hkeq := hkeys i oi ai h1 h2
    have hne : ¬(ai.trade_id = m.opt.trade_id ∧ ai.strategy = m.opt.strategy) := by
      rintro ⟨hk1, hk2⟩
      have hoi_mem : oi ∈ orig := getElem?_mem orig i oi h1
      have hne2 : m.opt ≠ oi := by
        intro he
        rw [he] at hm
        rw [hm.2] at hsome
        cases hsome
      have hR := hU.forall optKeys_symm hm.1 hoi_mem hne2
      rcases hR with hR | hR
      · exact hR (by rw [← hk1, hkeq.1])
      · exact hR (by rw [← hk2, hkeq.2])
    have hri1eq : ri1 = ai := hs5 hne
    have hcond := hrest2.2.2.2.2 hsome
    rw [hri1eq] at hcond
    exact hcond

/-- C9 (amended): `resolve_prices` never modifies an already-filled stock
field — a position with non-null `buy_price` keeps `buy_date`, `buy_price`
and `spy_buy_price`, one with non-null `sell_price` keeps its sell fields —
and, PROVIDED the option log has at most one leg per `(trade_id, strategy)`,
a leg with non-null `entry_price` (resp. `exit_price`) keeps its entry
(resp. exit) fields. Without that key uniqueness the claim fails: the
option updates write through a `(trade_id, strategy)` mask, so a duplicate
key lets an unresolved leg's fetch overwrite its filled twin. -/
theorem resolve_prices_frame (o : MarketOracle) (optPrice : String → Nat → Option ℚ)
    (stocks : List StockRow) (opts : List OptRow) :
    (∀ (i : Nat) (r r2 : StockRow), stocks[i]? = some r →
      (resolve_prices o optPrice stocks opts).stocks[i]? = some r2 →
      (r.buy_price.isSome = true → r2.buy_date = r.buy_date ∧
        r2.buy_price = r.buy_price ∧ r2.spy_buy_price = r.spy_buy_price) ∧
      (r.sell_price.isSome = true → r2.sell_date = r.sell_date ∧
        r2.sell_price = r.sell_price ∧ r2.spy_sell_price = r.spy_sell_price)) ∧
    (OptKeysUnique opts →
      ∀ (i : Nat) (oi ri : OptRow), opts[i]? = some oi →
        (resolve_prices o optPrice stocks opts).opts[i]? = some ri →
        (oi.entry_price.isSome = true →
          ri.entry_date = oi.entry_date ∧ ri.entry_price = oi.entry_price) ∧
        (oi.exit_price.isSome = true →
          ri.exit_date = oi.exit_date ∧ ri.exit_price = oi.exit_price)) := by
  constructor
  · intro i r r2 hr hr2
    have hr2e : r2 = resolve_sell_row o (resolve_buy_row o r) := by
      have h1 : (resolve_prices o optPrice stocks opts).stocks = resolve_stocks o stocks :=
        rfl
      rw [h1, resolve_stocks_getElem o stocks i r hr, Option.some.injEq] at hr2
      exact hr2.symm
    constructor
    · intro hsome
      rw [hr2e, resolve_buy_row_of_some o r hsome]
      exact ⟨(resolve_sell_row_frame o r).2.2.2.2.1,
        (resolve_sell_row_frame o r).2.2.2.2.2.1,
        (resolve_sell_row_frame o r).2.2.2.2.2.2⟩
    · intro hsome
      have h1 : (resolve_buy_row o r).sell_price = r.sell_price :=
        (resolve_buy_row_frame o r).2.2.2.2.2.1
      have h2 : (resolve_buy_row o r).sell_price.isSome = true := by rw [h1]; exact hsome
      rw [hr2e, resolve_sell_row_of_some o _ h2]
      exact ⟨(resolve_buy_row_frame o r).2.2.2.2.1, h1,
        (resolve_buy_row_frame o r).2.2.2.2.2.2⟩
  · intro hU i oi ri h1 h2
    have hi : i < opts.length := (List.getElem?_eq_some_iff.mp h1).1
    have hmsE : ∀ m ∈ (merged_rows (resolve_stocks o stocks) opts).filter
        (fun m => m.opt.entry_price.isNone && m.buy_date.isSome),
        m.opt ∈ opts ∧ m.opt.entry_price = none := by
      intro m hm
      obtain ⟨hmem, hpred⟩ := List.mem_filter.mp hm
      refine ⟨mem_merged_rows _ _ m hmem, ?_⟩
      exact Option.isNone_iff_eq_none.mp ((Bool.and_eq_true _ _).mp hpred).1
    have hmsX : ∀ m ∈ (merged_rows (resolve_stocks o stocks) opts).filter
        (fun m => m.opt.exit_price.isNone && m.sell_date.isSome),
        m.opt ∈ opts ∧ m.opt.exit_price = none := by
      intro m hm
      obtain ⟨hmem, hpred⟩ := List.mem_filter.mp hm
      refine ⟨mem_merged_rows _ _ m hmem, ?_⟩
      exact Option.isNone_iff_eq_none.mp ((Bool.and_eq_true _ _).mp hpred).1
    have hkeys0 : ∀ (j : Nat) (oj aj : OptRow), opts[j]? = some oj → opts[j]? = some aj →
        aj.trade_id = oj.trade_id ∧ aj.strategy = oj.strategy := by
      intro j oj aj hj1 hj2
      rw [hj1] at hj2
      have hj3 := Option.some.inj hj2
      rw [← hj3]
      exact ⟨rfl, rfl⟩
    obtain ⟨hElen, hE⟩ := entries_fold_frame optPrice opts hU _ hmsE opts rfl hkeys0
    have hElen2 : (resolve_entries optPrice
        (merged_rows (resolve_stocks o stocks) opts) opts).length = opts.length := hElen
    have hlt : i < (resolve_entries optPrice
        (merged_rows (resolve_stocks o stocks) opts) opts).length := by
      rw [hElen2]; exact hi
    obtain ⟨ei, hEi⟩ : ∃ ei, (resolve_entries optPrice
        (merged_rows (resolve_stocks o stocks) opts) opts)[i]? = some ei :=
      ⟨_, List.getElem?_eq_getElem hlt⟩
    have hEmain := hE i oi oi ei h1 h1 hEi
    have hkeysE : ∀ (j : Nat) (oj ej : OptRow), opts[j]? = some oj →
        (resolve_entries optPrice
          (merged_rows (resolve_stocks o stocks) opts) opts)[j]? = some ej →
        ej.trade_id = oj.trade_id ∧ ej.strategy = oj.strategy := by
      intro j oj ej hj1 hj2
      have := hE j oj oj ej hj1 hj1 hj2
      exact ⟨this.1, this.2.1⟩
    obtain ⟨hXlen, hX⟩ := exits_fold_frame optPrice opts hU _ hmsX
      (resolve_entries optPrice (merged_rows (resolve_stocks o stocks) opts) opts)
      hElen2 hkeysE
    have hXmain := hX i oi ei ri h1 hEi h2
    constructor
    · intro hsome
      obtain ⟨hed, hep⟩ := hEmain.2.2.2.2 hsome
      exact ⟨hXmain.2.2.1.trans hed, hXmain.2.2.2.1.trans hep⟩
    · intro hsome
      obtain ⟨hxd, hxp⟩ := hXmain.2.2.2.2 hsome
      exact ⟨hxd.trans hEmain.2.2.1, hxp.trans hEmain.2.2.2.1⟩

/-- Stock row for the C9 instances: buy already filled on day 10 at 5. -/
def cexSRow9 : StockRow :=
  { trade_id := "T1", cohort := "c", ticker := "X", signal_date := some 1,
    buy_date := some 10, buy_price := some 5, spy_buy_price := some 5,
    drop_date := none, sell_date := none, sell_price := none,
    spy_sell_price := none, status := Status.OPEN, user_action := "WATCH" }

/-- Option leg with a recorded entry fill (entry price 5 on day 10). -/
def cexLegA : OptRow :=
  { trade_id := "T1", strategy := "100d_Call", option_symbol := "SYM",
    expiration := 100, strike := 10, contract_type := "call",
    entry_date := some 10, entry_price := some 5, exit_date := none,
    exit_price := none, status := Status.OPEN }

/-- Duplicate-key leg for the same (trade_id, strategy), not yet filled. -/
def cexLegB : OptRow :=
  { cexLegA with entry_date := none, entry_price := none }

/-- Empty market oracle for the C9 instances (no stock bars needed). -/
def cexOracle9 : MarketOracle := ⟨fun _ _ => none, 0⟩

/-- C9 counterexample: with two legs sharing `(trade_id, strategy)` — a
state `process_signals` itself can create (see the C4 counterexample) —
resolving the unfilled leg's entry writes through the
`(trade_id, strategy)` mask and OVERWRITES the already-filled twin: its
recorded `entry_price = 5` becomes the freshly fetched 7. `resolve_prices`
does modify an already-filled field. -/
theorem resolve_prices_frame_cex :
    cexLegA.entry_price = some 5 ∧
    (resolve_prices cexOracle9 (fun _ _ => some 7)
        [cexSRow9] [cexLegA, cexLegB]).opts[0]? =
      some { cexLegA with entry_date := some 10, entry_price := some 7 } := by
  exact ⟨rfl, by decide⟩

/-- Witness for C9 (amended): with a unique-keyed option log, the filled
entry fields survive a resolution pass untouched. -/
theorem resolve_prices_frame_witness :
    OptKeysUnique [cexLegA] ∧ ([cexLegA] : List OptRow)[0]? = some cexLegA ∧
    cexLegA.entry_price.isSome = true ∧
    (resolve_prices cexOracle9 (fun _ _ => some 7) [] [cexLegA]).opts[0]? =
      some cexLegA ∧
    ∃ ri, (resolve_prices cexOracle9 (fun _ _ => some 7) [] [cexLegA]).opts[0]? =
        some ri ∧
      ri.entry_date = cexLegA.entry_date ∧ ri.entry_price = cexLegA.entry_price := by
  have hU : OptKeysUnique [cexLegA] := List.pairwise_singleton _ _
  have h1 : ([cexLegA] : List OptRow)[0]? = some cexLegA := rfl
  have h2 : (resolve_prices cexOracle9 (fun _ _ => some 7) [] [cexLegA]).opts[0]? =
      some cexLegA := by decide
  have h := ((resolve_prices_frame cexOracle9 (fun _ _ => some 7) [] [cexLegA]).2
    hU 0 cexLegA cexLegA h1 h2).1 rfl
  exact ⟨hU, h1, rfl, h2, cexLegA, h2, h.1, h.2⟩

/-- Market oracle for the C8/C10 witnesses: full bars on days 11 and 16. -/
def cexOracleW : MarketOracle :=
  ⟨fun d _ => if d == 11 || d == 16 then some (5, 3) else none, 100⟩

/-- Position for the C8/C10 witnesses: signalled day 10, dropped day 15,
nothing resolved yet. -/
def cexSRowW : StockRow :=
  { trade_id := "W_10", cohort := "c", ticker := "W", signal_date := some 10,
    buy_date := none, buy_price := none, spy_buy_price := none,
    drop_date := some 15, sell_date := none, sell_price := none,
    spy_sell_price := none, status := Status.CLOSED, user_action := "WATCH" }

/-- The resolved row for the C8/C10 witnesses: buy filled on day 11 at the
high 5, sell on day 16 at the low 3. -/
def cexR2W : StockRow :=
  { trade_id := "W_10", cohort := "c", ticker := "W", signal_date := some 10,
    buy_date := some 11, buy_price := some 5, spy_buy_price := some 5,
    drop_date := some 15, sell_date := some 16, sell_price := some 3,
    spy_sell_price := some 3, status := Status.CLOSED, user_action := "WATCH" }

/-- Witness for C8: the theorem applied to a concrete run where the buy
fills on day 11 < drop day 15 and the sell on day 16 > buy day 11. -/
theorem resolve_prices_search_bounds_witness :
    (([cexSRowW] : List StockRow)[0]? = some cexSRowW ∧
      (resolve_prices cexOracleW (fun _ _ => none) [cexSRowW] []).stocks[0]? =
        some cexR2W ∧
      cexSRowW.buy_price = none ∧ cexR2W.buy_price.isSome = true ∧
      cexSRowW.drop_date = some 15 ∧
      cexSRowW.sell_price = none ∧ cexR2W.sell_price.isSome = true ∧
      cexR2W.buy_date = some 11) ∧
    (∃ bd, cexR2W.buy_date = some bd ∧ bd < 15) ∧
    (∃ sd2, cexR2W.sell_date = some sd2 ∧ 11 < sd2) := by
  have hr : ([cexSRowW] : List StockRow)[0]? = some cexSRowW := rfl
  have hr2 : (resolve_prices cexOracleW (fun _ _ => none) [cexSRowW] []).stocks[0]? =
      some cexR2W := by decide
  have h := resolve_prices_search_bounds cexOracleW (fun _ _ => none) [cexSRowW] []
    0 cexSRowW cexR2W hr hr2
  refine ⟨⟨hr, hr2, rfl, rfl, rfl, rfl, rfl, rfl⟩, ?_, ?_⟩
  · exact h.1 rfl rfl 15 rfl
  · exact h.2 rfl rfl 11 rfl

/-- Witness for C10: in the same run, the filled buy day 11 is strictly
after the signal day 10 and the filled sell day 16 strictly after the drop
day 15. -/
theorem resolve_prices_strict_after_witness :
    (([cexSRowW] : List StockRow)[0]? = some cexSRowW ∧
      (resolve_prices cexOracleW (fun _ _ => none) [cexSRowW] []).stocks[0]? =
        some cexR2W ∧
      cexSRowW.signal_date = some 10 ∧ cexSRowW.drop_date = some 15) ∧
    (∃ bd, cexR2W.buy_date = some bd ∧ 10 < bd ∧ bd ≤ 15) ∧
    (∃ sd2, cexR2W.sell_date = some sd2 ∧ 15 < sd2 ∧ sd2 ≤ 20) := by
  have hr : ([cexSRowW] : List StockRow)[0]? = some cexSRowW := rfl
  have hr2 : (resolve_prices cexOracleW (fun _ _ => none) [cexSRowW] []).stocks[0]? =
      some cexR2W := by decide
  have h := resolve_prices_strict_after cexOracleW (fun _ _ => none) [cexSRowW] []
    0 cexSRowW cexR2W hr hr2
  exact ⟨⟨hr, hr2, rfl, rfl⟩, h.1 rfl rfl 10 rfl, h.2 rfl rfl 15 rfl⟩

end Momentum
